import Mathlib

/-!
Verification development for the convex-ents edge schema layer and its
edge-aware cascading deletion engine, lazy query cardinality helpers, and
invariant-maintenance rules.

The schema-declaration layer is embedded from `src/convex/ents/schema.ts`
(class `EntDefinitionImpl`).  The runtime engine (cascading deletion,
query cardinality, write-time invariant enforcement) is not part of the
packaged sources, so those operations are modelled from the specification
text, as marked on each definition.
-/

namespace ConvexEnts

/-! ## Embedding of `src/convex/ents/schema.ts` -/

/-- Cardinality of an edge end, from `GenericEdgeConfig` in schema.ts:
`cardinality: "single" | "multiple"`. -/
inductive Cardinality where
  | single
  | multiple
deriving DecidableEq, Repr

/-- Storage type of an edge config, from `EdgeConfig` in schema.ts:
`{ type: "field"; field: string } | { type: "ref" }`. -/
inductive EdgeConfigType where
  | field (field : String)
  | ref
deriving DecidableEq, Repr

/-- One entry of `EntDefinitionImpl.edgeConfigs`, from `EdgeConfig` in
schema.ts: `{ name: string; to: string; cardinality; ... }`. -/
structure EdgeConfig where
  name : String
  toTable : String
  cardinality : Cardinality
  type : EdgeConfigType
deriving DecidableEq, Repr

/-- One entry of `EntDefinitionImpl.indexes`, from the objects pushed in
schema.ts: `{ indexDescriptor: ..., fields: [...] }`. -/
structure Index where
  indexDescriptor : String
  fields : List String
deriving DecidableEq, Repr

/-- A search index entry, from `EntDefinitionImpl.searchIndex` in schema.ts. -/
structure SearchIndex where
  indexDescriptor : String
  searchField : String
  filterFields : List String
deriving DecidableEq, Repr

/-- A vector index entry, from `EntDefinitionImpl.vectorIndex` in schema.ts. -/
structure VectorIndex where
  indexDescriptor : String
  vectorField : String
  dimensions : Nat
  filterFields : List String
deriving DecidableEq, Repr

/-- The mutable state of class `EntDefinitionImpl` in schema.ts.  The
`documentType` validator payload is omitted: the `edge`/`edges` methods
never read or write it. -/
structure EntDefinitionImpl where
  indexes : List Index
  searchIndexes : List SearchIndex
  vectorIndexes : List VectorIndex
  edgeConfigs : List EdgeConfig
deriving DecidableEq, Repr

/-- The `EdgeOptions` type from schema.ts: `{ optional?: true }`.  The
field is optional in TS, hence `Option Bool` here, and the code compares
it against `true` exactly (`options.optional === true`). -/
structure EdgeOptions where
  optional : Option Bool
deriving DecidableEq, Repr

/-- The `EdgesOptions` type from schema.ts: `{ name: string }`. -/
structure EdgesOptions where
  name : String
deriving DecidableEq, Repr

/-- `EntDefinitionImpl.edge(table, options?)` from schema.ts lines
188-212.  With no options it records a single field edge to table
`table + "s"` stored in field `table + "Id"` and pushes one index over
that field; with `optional: true` it records a single `ref` edge; any
other options object leaves the definition unchanged. -/
def EntDefinitionImpl.edge (this : EntDefinitionImpl) (table : String)
    (options : Option EdgeOptions) : EntDefinitionImpl :=
  match options with
  | none =>
    { this with
      edgeConfigs := this.edgeConfigs ++
        [{ name := table, toTable := table ++ "s", cardinality := .single,
           type := .field (table ++ "Id") }]
      indexes := this.indexes ++
        [{ indexDescriptor := table ++ "Id", fields := [table ++ "Id"] }] }
  | some options =>
    if options.optional = some true then
      { this with
        edgeConfigs := this.edgeConfigs ++
          [{ name := table, toTable := table ++ "s", cardinality := .single,
             type := .ref }] }
    else
      this

/-- `EntDefinitionImpl.edges(table, options?)` from schema.ts lines
214-224.  With no options it records a multiple `ref` edge; when an
options object is supplied the method body falls through and returns
`this` unchanged. -/
def EntDefinitionImpl.edges (this : EntDefinitionImpl) (table : String)
    (options : Option EdgesOptions) : EntDefinitionImpl :=
  match options with
  | none =>
    { this with
      edgeConfigs := this.edgeConfigs ++
        [{ name := table, toTable := table, cardinality := .multiple,
           type := .ref }] }
  | some _ => this

/-! ## Lazy query cardinality helpers (`unique` / `uniqueX`)

The fluent query builder itself is not among the packaged sources; the
`unique`/`uniqueX` terminal operations are modelled from the spec. -/

/-- An error produced by a terminal query operation. -/
inductive QueryError where
  | notFound
  | cardinalityViolation
deriving DecidableEq, Repr

/-- Modelled from the spec: the runtime query builder's `unique` terminal
operation (not among the packaged sources).  "execute the query; if more
than one result is produced, fail with a cardinality-violation error; if
zero results, `unique` yields absence". -/
def uniqueResult {α : Type} (results : List α) : Except QueryError (Option α) :=
  match results with
  | [] => .ok none
  | [x] => .ok (some x)
  | _ :: _ :: _ => .error .cardinalityViolation

/-- Modelled from the spec: the runtime query builder's `uniqueX`
terminal operation (not among the packaged sources).  "`uniqueX` throws
if the listing produced more or less than 1 result"; zero results is a
"not found" error, more than one a cardinality error. -/
def uniqueXResult {α : Type} (results : List α) : Except QueryError α :=
  match results with
  | [] => .error .notFound
  | [x] => .ok x
  | _ :: _ :: _ => .error .cardinalityViolation

/-! ## Runtime data model

The runtime engine (entity store, cascading deletion, write-time
invariant enforcement) is not among the packaged sources; it is modelled
from the specification's data model (spec sections 3-4).  Ids are `Nat`,
field values referencing entities are entity ids, and field/value maps
are association lists. -/

/-- Modelled from the spec: a table's deletion policy, `hard` (default),
`soft`, or `scheduled(delayMs)`. -/
inductive DeletionPolicy where
  | hard
  | soft
  | scheduled (delayMs : Nat)
deriving DecidableEq, Repr

/-- Modelled from the spec: the runtime descriptor of a 1:1 or 1:many
field edge.  The owning table stores the foreign key in `field`; the
target end is required (in schema.ts only optionless `edge(...)` calls
produce `type: "field"` configs, and those are the required ones), so
entities of `ownerTable` are the dependents of the referenced entity of
`targetTable`.  `softCascade` is the `soft-cascade` deletion behavior
flag for the edge. -/
structure FieldEdge where
  ownerTable : String
  targetTable : String
  field : String
  softCascade : Bool
deriving DecidableEq, Repr

/-- Modelled from the spec: the schema metadata the runtime engine
consumes: per-table deletion policies (defaulting to `hard`), the field
edges, and per-table unique field names. -/
structure Schema where
  policies : List (String × DeletionPolicy)
  fieldEdges : List FieldEdge
  uniqueFields : List (String × List String)
deriving DecidableEq, Repr

/-- The deletion policy of a table; tables without an entry use the
default `hard` policy. -/
def Schema.policyOf (s : Schema) (table : String) : DeletionPolicy :=
  ((s.policies.find? (fun p => p.1 == table)).map (·.2)).getD .hard

/-- The unique field names declared for a table. -/
def Schema.uniqueFieldsOf (s : Schema) (table : String) : List String :=
  ((s.uniqueFields.find? (fun p => p.1 == table)).map (·.2)).getD []

/-- The field edges stored on (owned by) a table. -/
def Schema.fieldEdgesFrom (s : Schema) (table : String) : List FieldEdge :=
  s.fieldEdges.filter (fun fe => fe.ownerTable == table)

/-- Modelled from the spec: one stored entity: immutable id, owning
table, creation timestamp, the optional `deletionTime` soft-deletion
marker (absent = live), and its foreign-key-valued fields as an
association list from field name to referenced entity id. -/
structure Entity where
  id : Nat
  table : String
  creationTime : Nat
  deletionTime : Option Nat
  fields : List (String × Nat)
deriving DecidableEq, Repr

/-- Modelled from the spec: one join-table row of a many:many edge:
row id, join table name, the two foreign keys, and the row's creation
timestamp. -/
structure JoinRow where
  id : Nat
  joinTable : String
  field1 : Nat
  field2 : Nat
  creationTime : Nat
deriving DecidableEq, Repr

/-- One entry of the deletion audit trail: the order in which the
deletion engine issues its writes within a transaction. -/
inductive AuditOp where
  | removedEntity (id : Nat)
  | removedJoinRow (id : Nat)
  | softDeleted (id : Nat)
  | enqueuedPass (id delayMs : Nat)
deriving DecidableEq, Repr

/-- Modelled from the spec: the transactional document store state:
entities, many:many join rows, the log of enqueued scheduled
hard-deletion passes `(entity id, delayMs)`, a fresh-id counter, the
transaction clock, and the ordered audit trail of deletion writes. -/
structure DB where
  entities : List Entity
  joinRows : List JoinRow
  schedQ : List (Nat × Nat)
  nextId : Nat
  time : Nat
  audit : List AuditOp
deriving DecidableEq, Repr

/-- The empty store. -/
def DB.empty : DB :=
  { entities := [], joinRows := [], schedQ := [], nextId := 0, time := 0,
    audit := [] }

/-- Point lookup of an entity by id. -/
def findEntity (db : DB) (x : Nat) : Option Entity :=
  db.entities.find? (fun e => e.id == x)

/-- The ids of the entities present in the store. -/
def entityIds (db : DB) : List Nat :=
  db.entities.map (·.id)

/-- An entity with its soft-deletion marker cleared; two entities with
equal `stripDT` images agree on id, table, creation time and fields. -/
def stripDT (e : Entity) : Entity :=
  { e with deletionTime := none }

/-- Whether join row `r` references entity id `x` on either side (for a
symmetric self edge both direction rows reference `x`). -/
def rowRefs (r : JoinRow) (x : Nat) : Bool :=
  r.field1 == x || r.field2 == x

/-- Whether entity `d` is a direct dependent of entity `t`: some field
edge owned by `d`'s table targets `t`'s table and `d`'s foreign key
holds `t`'s id, i.e. `d` sits on an edge where `t` is on the required
end pointing away. -/
def isDepOf (s : Schema) (d t : Entity) : Bool :=
  s.fieldEdges.any (fun fe =>
    fe.ownerTable == d.table && fe.targetTable == t.table &&
      d.fields.lookup fe.field == some t.id)

/-- Whether entity `d` is a direct dependent of entity `t` along an edge
declared with `soft-cascade` deletion behavior. -/
def isSoftDepOf (s : Schema) (d t : Entity) : Bool :=
  s.fieldEdges.any (fun fe =>
    fe.softCascade && fe.ownerTable == d.table && fe.targetTable == t.table &&
      d.fields.lookup fe.field == some t.id)

/-- The ids of the direct dependents of the entity with id `x` (empty
when `x` is not present: without the entity its table is unknown and no
edge points away from it). -/
def directDepIds (s : Schema) (db : DB) (x : Nat) : List Nat :=
  match findEntity db x with
  | none => []
  | some e => (db.entities.filter (fun d => isDepOf s d e)).map (·.id)

/-- The ids of the direct soft-cascade dependents of the entity with id
`x`. -/
def directSoftDepIds (s : Schema) (db : DB) (x : Nat) : List Nat :=
  match findEntity db x with
  | none => []
  | some e => (db.entities.filter (fun d => isSoftDepOf s d e)).map (·.id)

/-- One hard-dependency step: `b` is a direct dependent of `a`. -/
def HardStep (s : Schema) (db : DB) (a b : Nat) : Prop :=
  b ∈ directDepIds s db a

/-- One soft-cascade dependency step: `b` is a direct soft-cascade
dependent of `a`. -/
def SoftStep (s : Schema) (db : DB) (a b : Nat) : Prop :=
  b ∈ directSoftDepIds s db a

/-- `d` is a (transitive) dependent of `x`: reachable from `x` by one or
more hard-dependency steps. -/
def TransDep (s : Schema) (db : DB) (x d : Nat) : Prop :=
  Relation.TransGen (HardStep s db) x d

/-- `d` is a (transitive) soft-cascade dependent of `x`. -/
def TransSoftDep (s : Schema) (db : DB) (x d : Nat) : Prop :=
  Relation.TransGen (SoftStep s db) x d

/-- Remove the entity with id `x` and record the write in the audit
trail. -/
def removeEntity (db : DB) (x : Nat) : DB :=
  { db with
    entities := db.entities.filter (fun e => e.id != x)
    audit := db.audit ++ [.removedEntity x] }

/-- Remove every many:many join row referencing `x` (both direction rows
for self edges), recording each removed row in the audit trail. -/
def removeJoinRowsRef (db : DB) (x : Nat) : DB :=
  { db with
    joinRows := db.joinRows.filter (fun r => !rowRefs r x)
    audit := db.audit ++
      ((db.joinRows.filter (fun r => rowRefs r x)).map
        (fun r => .removedJoinRow r.id)) }

/-- Set the soft-deletion marker of the entity with id `x` to time `t`,
recording the write in the audit trail. -/
def setDeletionTime (db : DB) (x : Nat) (t : Nat) : DB :=
  { db with
    entities := db.entities.map (fun e =>
      if e.id == x then { e with deletionTime := some t } else e)
    audit := db.audit ++ [.softDeleted x] }

/-- Modelled from the spec: recursive depth-first hard deletion (spec
section 4.5 step 2, not among the packaged sources): for every edge where
the entity is on the required end pointing away, recursively hard-delete
the dependent entities first, then remove all many:many join rows
referencing the entity, then remove the entity itself, all within the
same transaction.  `fuel` bounds the recursion depth; the spec accepts
unbounded recursive depth, so the theorems assume enough fuel. -/
def hardDeleteEntity : Nat → Schema → DB → Nat → DB
  | 0, _, db, _ => db
  | fuel + 1, s, db, x =>
    match findEntity db x with
    | none => db
    | some _ =>
      let deps := directDepIds s db x
      let db1 := deps.foldl (fun acc d => hardDeleteEntity fuel s acc d) db
      removeEntity (removeJoinRowsRef db1 x) x

/-- Modelled from the spec: soft deletion (spec section 4.5 step 3, not
among the packaged sources): set `deletionTime` to the transaction time
on the entity, then recursively soft-delete the dependents along edges
declared with `soft-cascade` deletion behavior, immediately in the same
transaction.  Many:many join rows are not touched. -/
def softDeleteEntity : Nat → Schema → DB → Nat → Nat → DB
  | 0, _, db, _, _ => db
  | fuel + 1, s, db, x, t =>
    match findEntity db x with
    | none => db
    | some _ =>
      let deps := directSoftDepIds s db x
      let db1 := setDeletionTime db x t
      deps.foldl (fun acc d => softDeleteEntity fuel s acc d t) db1

/-- Modelled from the spec: `delete(entity)` (spec section 4.5 steps 1-4,
not among the packaged sources): dispatch on the table's deletion policy;
`hard` performs the recursive hard delete, `soft` the immediate soft
cascade, and `scheduled(delayMs)` performs the soft cascade and then
enqueues one future hard-deletion pass for this entity's id with delay
`delayMs` (only the directly requested deletion enqueues a pass; the
cascade itself never does). -/
def deleteEnt (fuel : Nat) (s : Schema) (db : DB) (x : Nat) : DB :=
  match findEntity db x with
  | none => db
  | some e =>
    match s.policyOf e.table with
    | .hard => hardDeleteEntity fuel s db x
    | .soft => softDeleteEntity fuel s db x db.time
    | .scheduled delayMs =>
      let db1 := softDeleteEntity fuel s db x db.time
      { db1 with
        schedQ := db1.schedQ ++ [(x, delayMs)]
        audit := db1.audit ++ [.enqueuedPass x delayMs] }

/-- Modelled from the spec: the scheduled hard-deletion pass (spec
section 4.5 step 5, not among the packaged sources): when it runs it
re-checks that the entity is still soft-deleted before performing the
recursive hard delete; if the entity was undeleted (marker unset) or is
already gone, the pass is a no-op. -/
def scheduledDeletePass (fuel : Nat) (s : Schema) (db : DB) (x : Nat) : DB :=
  match findEntity db x with
  | none => db
  | some e =>
    if e.deletionTime.isSome then hardDeleteEntity fuel s db x else db

/-- Modelled from the spec: undelete: the caller unsets the
soft-deletion marker (`deletionTime`) of the entity, returning it to the
`live` state and canceling a pending scheduled pass. -/
def undeleteEnt (db : DB) (x : Nat) : DB :=
  { db with
    entities := db.entities.map (fun e =>
      if e.id == x then { e with deletionTime := none } else e) }

/-- References point backwards: every foreign key held by a dependent
references an entity with a strictly smaller id than the dependent's
own.  This holds in particular for any store built by inserts whose
references are never re-pointed at later-created entities (each insert's
dangling-reference check forces the target to exist, hence to have a
smaller id), and it makes the dependency graph well-founded. -/
def OrderedDeps (s : Schema) (db : DB) : Prop :=
  ∀ d ∈ db.entities, ∀ t ∈ db.entities, isDepOf s d t = true → t.id < d.id

/-- The store holds at most one entity per id. -/
def NodupIds (db : DB) : Prop :=
  (db.entities.map (·.id)).Nodup

/-- The number of entities with id strictly greater than `x`; an upper
bound for the size of `x`'s dependency closure under `OrderedDeps`. -/
def countGT (db : DB) (x : Nat) : Nat :=
  (db.entities.filter (fun e => x < e.id)).length

/-- Two stores with the same skeleton: identical entity lists up to the
soft-deletion markers.  Dependency steps only inspect the skeleton, so
they coincide on skeleton-equal stores. -/
def SameSkel (db1 db2 : DB) : Prop :=
  db1.entities.map stripDT = db2.entities.map stripDT

/-! ## Invariant enforcement layer (writes)

Modelled from the spec (section 4.4, not among the packaged sources):
every insert/patch/replace validates required foreign keys, uniqueness
and dangling references, in that order, before any write commits; an
error aborts the whole operation.  Rule predicates (spec step 5) are an
external collaborator and are not modelled. -/

/-- An error raised by the invariant enforcement layer; the mutation is
rejected before any write is committed. -/
inductive WriteError where
  | notFound
  | missingRequiredField
  | uniquenessViolation
  | danglingReference
deriving DecidableEq, Repr

/-- Modelled from the spec (step 1): every (required) field edge owned by
the table must have its foreign-key field present. -/
def requiredFieldsOk (s : Schema) (table : String)
    (fields : List (String × Nat)) : Bool :=
  (s.fieldEdgesFrom table).all (fun fe => (fields.lookup fe.field).isSome)

/-- Modelled from the spec (step 2): for every unique field being set,
an indexed point lookup for a conflicting existing entity in the same
table (for patch/replace the entity itself, `selfId`, is not a
conflict). -/
def uniqueOk (s : Schema) (db : DB) (table : String) (selfId : Option Nat)
    (fields : List (String × Nat)) : Bool :=
  (s.uniqueFieldsOf table).all (fun f =>
    match fields.lookup f with
    | none => true
    | some v =>
      !(db.entities.any (fun e =>
        e.table == table &&
          (match selfId with
           | none => true
           | some i => e.id != i) &&
          e.fields.lookup f == some v)))

/-- Modelled from the spec (step 3): for every field-edge reference being
set, the referenced entity must exist in the target table. -/
def refsOk (s : Schema) (db : DB) (table : String)
    (fields : List (String × Nat)) : Bool :=
  (s.fieldEdgesFrom table).all (fun fe =>
    match fields.lookup fe.field with
    | none => true
    | some v =>
      db.entities.any (fun e => e.id == v && e.table == fe.targetTable))

/-- Modelled from the spec: insert: run the checks in spec order and, if
all pass, append a fresh live entity with the next id and the current
transaction time. -/
def insertEnt (s : Schema) (db : DB) (table : String)
    (fields : List (String × Nat)) : Except WriteError DB :=
  if requiredFieldsOk s table fields then
    if uniqueOk s db table none fields then
      if refsOk s db table fields then
        .ok { db with
          entities := db.entities ++
            [{ id := db.nextId, table := table, creationTime := db.time,
               deletionTime := none, fields := fields }]
          nextId := db.nextId + 1
          time := db.time + 1 }
      else .error .danglingReference
    else .error .uniquenessViolation
  else .error .missingRequiredField

/-- Modelled from the spec: patch: partial update; only the fields being
set are checked for uniqueness conflicts (excluding the entity itself)
and dangling references, then they override the stored fields.  Required
foreign keys cannot disappear under a partial update, so step 1 holds
automatically. -/
def patchEnt (s : Schema) (db : DB) (x : Nat)
    (fields : List (String × Nat)) : Except WriteError DB :=
  match findEntity db x with
  | none => .error .notFound
  | some e =>
    if uniqueOk s db e.table (some x) fields then
      if refsOk s db e.table fields then
        .ok { db with
          entities := db.entities.map (fun d =>
            if d.id == x then { d with fields := fields ++ d.fields } else d)
          time := db.time + 1 }
      else .error .danglingReference
    else .error .uniquenessViolation

/-- Modelled from the spec: replace: full overwrite of the entity's
fields; all checks run against the new field list (excluding the entity
itself from the uniqueness lookup). -/
def replaceEnt (s : Schema) (db : DB) (x : Nat)
    (fields : List (String × Nat)) : Except WriteError DB :=
  match findEntity db x with
  | none => .error .notFound
  | some e =>
    if requiredFieldsOk s e.table fields then
      if uniqueOk s db e.table (some x) fields then
        if refsOk s db e.table fields then
          .ok { db with
            entities := db.entities.map (fun d =>
              if d.id == x then { d with fields := fields } else d)
            time := db.time + 1 }
        else .error .danglingReference
      else .error .uniquenessViolation
    else .error .missingRequiredField

/-- Modelled from the spec: connect two entities across a many:many edge
by writing one join-table row stamped with the transaction time. -/
def addJoinRow (db : DB) (jt : String) (a b : Nat) : DB :=
  { db with
    joinRows := db.joinRows ++
      [{ id := db.nextId, joinTable := jt, field1 := a, field2 := b,
         creationTime := db.time }]
    nextId := db.nextId + 1
    time := db.time + 1 }

/-- Modelled from the spec: `edge(name)` traversal of a single field
edge from a loaded entity: read the foreign key and point-look-up the
referenced entity. -/
def edgeTraverse (db : DB) (e : Entity) (fe : FieldEdge) : Option Entity :=
  (e.fields.lookup fe.field).bind (fun v => findEntity db v)

/-- A unique field's value is held by at most one entity in its table:
two distinct entities of one table never share a declared unique field
value. -/
def UniqueInv (s : Schema) (db : DB) : Prop :=
  ∀ e1 ∈ db.entities, ∀ e2 ∈ db.entities, e1.id ≠ e2.id →
    e1.table = e2.table → ∀ f ∈ s.uniqueFieldsOf e1.table, ∀ v,
      e1.fields.lookup f = some v → e2.fields.lookup f ≠ some v

/-- Every stored entity's id is below the fresh-id counter. -/
def IdBound (db : DB) : Prop :=
  ∀ e ∈ db.entities, e.id < db.nextId

/-- The well-formedness the engine maintains across all operations. -/
def WF (s : Schema) (db : DB) : Prop :=
  IdBound db ∧ NodupIds db ∧ UniqueInv s db

/-- The stores reachable from the empty store through the engine's
operations: inserts, patches, replaces, many:many connections, deletes,
scheduled passes and undeletes. -/
inductive Reachable (s : Schema) : DB → Prop where
  | empty : Reachable s DB.empty
  | insert {db db' : DB} {table : String} {fields : List (String × Nat)} :
      Reachable s db → insertEnt s db table fields = .ok db' → Reachable s db'
  | patch {db db' : DB} {x : Nat} {fields : List (String × Nat)} :
      Reachable s db → patchEnt s db x fields = .ok db' → Reachable s db'
  | replace {db db' : DB} {x : Nat} {fields : List (String × Nat)} :
      Reachable s db → replaceEnt s db x fields = .ok db' → Reachable s db'
  | connect {db : DB} {jt : String} {a b : Nat} :
      Reachable s db → Reachable s (addJoinRow db jt a b)
  | delete {db : DB} {fuel x : Nat} :
      Reachable s db → Reachable s (deleteEnt fuel s db x)
  | pass {db : DB} {fuel x : Nat} :
      Reachable s db → Reachable s (scheduledDeletePass fuel s db x)
  | undelete {db : DB} {x : Nat} :
      Reachable s db → Reachable s (undeleteEnt db x)

/-! ## Concrete fixtures for witnesses and counterexamples -/

/-- A schema with a scheduled-deletion `users` table and a required
soft-cascading field edge from `profiles` to `users`. -/
def sSched : Schema :=
  { policies := [("users", .scheduled 10)]
    fieldEdges := [{ ownerTable := "profiles", targetTable := "users",
                     field := "userId", softCascade := true }]
    uniqueFields := [("users", ["email"])] }

/-- A store holding one live `users` entity. -/
def dbLive : DB :=
  { entities := [{ id := 1, table := "users", creationTime := 0,
                   deletionTime := none, fields := [] }]
    joinRows := [], schedQ := [], nextId := 2, time := 3, audit := [] }

/-- A store holding one soft-deleted `users` entity. -/
def dbMarked : DB :=
  { entities := [{ id := 1, table := "users", creationTime := 0,
                   deletionTime := some 5, fields := [] }]
    joinRows := [], schedQ := [], nextId := 2, time := 6, audit := [] }

/-- A schema with a soft-deletion `users` table and a soft-cascading
required field edge from `profiles` to `users`. -/
def sSoft : Schema :=
  { policies := [("users", .soft)]
    fieldEdges := [{ ownerTable := "profiles", targetTable := "users",
                     field := "userId", softCascade := true }]
    uniqueFields := [] }

/-- A store where the `users` entity 1 has a soft-cascade dependent
profile 2 and two many:many join rows, one to the unrelated entity 0 and
one to the dependent profile 2 itself. -/
def dbC4 : DB :=
  { entities :=
      [{ id := 0, table := "widgets", creationTime := 0,
         deletionTime := none, fields := [] },
       { id := 1, table := "users", creationTime := 1,
         deletionTime := none, fields := [] },
       { id := 2, table := "profiles", creationTime := 2,
         deletionTime := none, fields := [("userId", 1)] }]
    joinRows :=
      [{ id := 3, joinTable := "users_widgets", field1 := 1, field2 := 0,
         creationTime := 3 },
       { id := 4, joinTable := "users_profiles", field1 := 1, field2 := 2,
         creationTime := 4 }]
    schedQ := [], nextId := 5, time := 7, audit := [] }

/-- A write-layer schema: `users` has the unique field `email`, and
`profiles` owns a required field edge to `users`. -/
def sWrite : Schema :=
  { policies := []
    fieldEdges := [{ ownerTable := "profiles", targetTable := "users",
                     field := "userId", softCascade := false }]
    uniqueFields := [("users", ["email"])] }

/-- The store reached from empty by inserting one user with email 42. -/
def dbU : DB :=
  { entities := [{ id := 0, table := "users", creationTime := 0,
                   deletionTime := none, fields := [("email", 42)] }]
    joinRows := [], schedQ := [], nextId := 1, time := 1, audit := [] }

/-- The store reached from `dbU` by inserting a second user with
email 43. -/
def dbU2 : DB :=
  { entities := [{ id := 0, table := "users", creationTime := 0,
                   deletionTime := none, fields := [("email", 42)] },
                 { id := 1, table := "users", creationTime := 1,
                   deletionTime := none, fields := [("email", 43)] }]
    joinRows := [], schedQ := [], nextId := 2, time := 2, audit := [] }

/-- Modelled from the spec: the rows of a many:many edge collection for
the entity with id `x`, as produced by the join table's index scan on
the near foreign key: the matching rows in stored order, which for any
reachable store is ascending join-row creation time (the join-table
insertion order). -/
def manyEdgeRows (db : DB) (jt : String) (x : Nat) : List JoinRow :=
  db.joinRows.filter (fun r => r.joinTable == jt && r.field1 == x)

/-- Modelled from the spec: traversal of a many:many edge: the far
entities of the collection's join rows, in the join rows' order. -/
def manyEdgeCollection (db : DB) (jt : String) (x : Nat) : List Entity :=
  (manyEdgeRows db jt x).filterMap (fun r => findEntity db r.field2)

/-- A store where message 1 is joined to tag 2 (created at time 10) and
then to tag 3 (created at time 5): the join rows were inserted in the
order 2, 3 but the far entities' own creation times are 10, 5. -/
def dbC8 : DB :=
  { entities :=
      [{ id := 1, table := "messages", creationTime := 0,
         deletionTime := none, fields := [] },
       { id := 2, table := "tags", creationTime := 10,
         deletionTime := none, fields := [] },
       { id := 3, table := "tags", creationTime := 5,
         deletionTime := none, fields := [] }]
    joinRows :=
      [{ id := 4, joinTable := "tags_join", field1 := 1, field2 := 2,
         creationTime := 20 },
       { id := 5, joinTable := "tags_join", field1 := 1, field2 := 3,
         creationTime := 21 }]
    schedQ := [], nextId := 6, time := 22, audit := [] }

/-- A store with a hard-deletion `users` entity 0 (the `users` table has
no policy entry in `sWrite`, so the default `hard` applies), a dependent
profile 1 referencing it, and one join row from user 0 to profile 1. -/
def dbCasc : DB :=
  { entities := [{ id := 0, table := "users", creationTime := 0,
                   deletionTime := none, fields := [("email", 42)] },
                 { id := 1, table := "profiles", creationTime := 1,
                   deletionTime := none, fields := [("userId", 0)] }]
    joinRows := [{ id := 2, joinTable := "likes", field1 := 0, field2 := 1,
                   creationTime := 1 }]
    schedQ := [], nextId := 3, time := 2, audit := [] }

/-- A store for the scheduled-deletion claim: user 1 (policy
`scheduled`) with a soft-cascade dependent profile 2. -/
def dbSched : DB :=
  { entities := [{ id := 1, table := "users", creationTime := 0,
                   deletionTime := none, fields := [] },
                 { id := 2, table := "profiles", creationTime := 1,
                   deletionTime := none, fields := [("userId", 1)] }]
    joinRows := [], schedQ := [], nextId := 3, time := 4, audit := [] }

/-- The store reached from `dbU` by inserting a profile referencing
user 0. -/
def dbProf : DB :=
  { entities := [{ id := 0, table := "users", creationTime := 0,
                   deletionTime := none, fields := [("email", 42)] },
                 { id := 1, table := "profiles", creationTime := 1,
                   deletionTime := none, fields := [("userId", 0)] }]
    joinRows := [], schedQ := [], nextId := 2, time := 2, audit := [] }

/-- The store reached from `dbProf` by patching profile 1 with
`userId := 0` (the patch prepends the set field to the stored
association list). -/
def dbProfPatched : DB :=
  { entities := [{ id := 0, table := "users", creationTime := 0,
                   deletionTime := none, fields := [("email", 42)] },
                 { id := 1, table := "profiles", creationTime := 1,
                   deletionTime := none,
                   fields := [("userId", 0), ("userId", 0)] }]
    joinRows := [], schedQ := [], nextId := 2, time := 3, audit := [] }

/-- The store reached from `dbProf` by replacing profile 1's fields with
`[("userId", 0)]` (the same values, so only the clock advances). -/
def dbProfT3 : DB :=
  { entities := [{ id := 0, table := "users", creationTime := 0,
                   deletionTime := none, fields := [("email", 42)] },
                 { id := 1, table := "profiles", creationTime := 1,
                   deletionTime := none, fields := [("userId", 0)] }]
    joinRows := [], schedQ := [], nextId := 2, time := 3, audit := [] }

end ConvexEnts

namespace ConvexEnts

/-- Claim C9: for every edge name `n`, declaring a required single field
edge via `edge(n)` with no options records an edge config with target
table `n ++ "s"` and foreign-key field `n ++ "Id"`, and appends exactly
one single-field index named `n ++ "Id"` over that field to the owning
table. -/
theorem edge_no_options_layout (d : EntDefinitionImpl) (n : String) :
    (d.edge n none).edgeConfigs = d.edgeConfigs ++
      [{ name := n, toTable := n ++ "s", cardinality := .single,
         type := .field (n ++ "Id") }] ∧
    (d.edge n none).indexes = d.indexes ++
      [{ indexDescriptor := n ++ "Id", fields := [n ++ "Id"] }] ∧
    (d.edge n none).searchIndexes = d.searchIndexes ∧
    (d.edge n none).vectorIndexes = d.vectorIndexes := by
  refine ⟨rfl, rfl, rfl, rfl⟩

/-- Claim C10: for every table name `t` and every defined options
argument `o`, `EntDefinitionImpl.edges(t, o)` returns the same definition
with `edgeConfigs` and `indexes` unchanged: a many:many edge declared
with an explicit options object is silently not recorded in the edge
metadata and no configuration error is raised. -/
theorem edges_with_options_noop (d : EntDefinitionImpl) (t : String)
    (o : EdgesOptions) :
    d.edges t (some o) = d ∧
    (d.edges t (some o)).edgeConfigs = d.edgeConfigs ∧
    (d.edges t (some o)).indexes = d.indexes := by
  refine ⟨rfl, rfl, rfl⟩

/-- Claim C7: `unique` yields absence on zero results and fails with a
cardinality-violation error on more than one; `uniqueX` fails with a
"not found" error on zero results, with a cardinality error on more than
one, and returns the single entity on exactly one. -/
theorem unique_uniqueX_cardinality (l : List Nat) :
    (l = [] → uniqueResult l = .ok none ∧ uniqueXResult l = .error .notFound) ∧
    (1 < l.length → uniqueResult l = .error .cardinalityViolation ∧
      uniqueXResult l = .error .cardinalityViolation) ∧
    (∀ x, l = [x] → uniqueResult l = .ok (some x) ∧ uniqueXResult l = .ok x) := by
  refine ⟨?_, ?_, ?_⟩
  · rintro rfl
    exact ⟨rfl, rfl⟩
  · intro h
    match l, h with
    | _ :: _ :: _, _ => exact ⟨rfl, rfl⟩
  · rintro x rfl
    exact ⟨rfl, rfl⟩

/-- Witness for C7 at concrete inputs: the empty, two-element and
singleton cases of `unique_uniqueX_cardinality` evaluated on small lists. -/
theorem unique_uniqueX_cardinality_witness :
    (uniqueResult ([] : List Nat) = .ok none ∧
      uniqueXResult ([] : List Nat) = .error .notFound) ∧
    (uniqueResult [3, 4] = .error .cardinalityViolation ∧
      uniqueXResult [3, 4] = .error .cardinalityViolation) ∧
    (uniqueResult [5] = .ok (some 5) ∧ uniqueXResult [5] = .ok 5) :=
  ⟨(unique_uniqueX_cardinality []).1 rfl,
   (unique_uniqueX_cardinality [3, 4]).2.1 (by decide),
   (unique_uniqueX_cardinality [5]).2.2 5 rfl⟩

/-! ## Basic store lemmas -/

theorem findEntity_some_mem {db : DB} {x : Nat} {e : Entity}
    (h : findEntity db x = some e) : e ∈ db.entities :=
  List.mem_of_find?_eq_some h

theorem findEntity_some_id {db : DB} {x : Nat} {e : Entity}
    (h : findEntity db x = some e) : e.id = x := by
  have := List.find?_some h
  simpa using this

theorem findEntity_none_iff {db : DB} {x : Nat} :
    findEntity db x = none ↔ ∀ e ∈ db.entities, e.id ≠ x := by
  simp [findEntity, List.find?_eq_none]

theorem mem_id_inj {db : DB} (h : NodupIds db) {a b : Entity}
    (ha : a ∈ db.entities) (hb : b ∈ db.entities) (hid : a.id = b.id) :
    a = b :=
  List.inj_on_of_nodup_map h ha hb hid

theorem findEntity_of_mem {db : DB} {x : Nat} {e : Entity} (h : NodupIds db)
    (he : e ∈ db.entities) (hid : e.id = x) : findEntity db x = some e := by
  cases hfind : findEntity db x with
  | none => exact absurd hid (findEntity_none_iff.mp hfind e he)
  | some e' =>
    have h1 : e' ∈ db.entities := findEntity_some_mem hfind
    have h2 : e'.id = x := findEntity_some_id hfind
    exact congrArg some (mem_id_inj h h1 he (h2.trans hid.symm))

/-! ## Shrinking lemmas for the deletion engine -/

theorem foldl_entities_sublist {g : DB → Nat → DB}
    (h : ∀ db d, List.Sublist (g db d).entities db.entities) :
    ∀ (ds : List Nat) (db : DB), List.Sublist (ds.foldl g db).entities db.entities := by
  intro ds
  induction ds with
  | nil => intro db; exact List.Sublist.refl _
  | cons d ds ih =>
    intro db
    exact (ih (g db d)).trans (h db d)

theorem hardDel_entities_sublist :
    ∀ (fuel : Nat) (s : Schema) (db : DB) (x : Nat),
      List.Sublist (hardDeleteEntity fuel s db x).entities db.entities := by
  intro fuel
  induction fuel with
  | zero => intro s db x; exact List.Sublist.refl _
  | succ fuel ih =>
    intro s db x
    show List.Sublist (hardDeleteEntity (fuel + 1) s db x).entities db.entities
    rw [hardDeleteEntity]
    cases findEntity db x with
    | none => exact List.Sublist.refl _
    | some e =>
      simp only
      refine List.Sublist.trans ?_
        (foldl_entities_sublist (fun db d => ih s db d) (directDepIds s db x) db)
      exact List.filter_sublist _

theorem hardDel_joinRows_sublist :
    ∀ (fuel : Nat) (s : Schema) (db : DB) (x : Nat),
      List.Sublist (hardDeleteEntity fuel s db x).joinRows db.joinRows := by
  intro fuel
  induction fuel with
  | zero => intro s db x; exact List.Sublist.refl _
  | succ fuel ih =>
    intro s db x
    rw [hardDeleteEntity]
    cases findEntity db x with
    | none => exact List.Sublist.refl _
    | some e =>
      simp only
      have hfold : ∀ (ds : List Nat) (db0 : DB),
          List.Sublist
            (ds.foldl (fun acc d => hardDeleteEntity fuel s acc d) db0).joinRows
            db0.joinRows := by
        intro ds
        induction ds with
        | nil => intro db0; exact List.Sublist.refl _
        | cons d ds ihds =>
          intro db0
          exact (ihds _).trans (ih s db0 d)
      exact List.Sublist.trans (List.filter_sublist _) (hfold _ db)

theorem hardDel_schedQ_time_nextId :
    ∀ (fuel : Nat) (s : Schema) (db : DB) (x : Nat),
      (hardDeleteEntity fuel s db x).schedQ = db.schedQ ∧
      (hardDeleteEntity fuel s db x).time = db.time ∧
      (hardDeleteEntity fuel s db x).nextId = db.nextId := by
  intro fuel
  induction fuel with
  | zero => intro s db x; exact ⟨rfl, rfl, rfl⟩
  | succ fuel ih =>
    intro s db x
    rw [hardDeleteEntity]
    cases findEntity db x with
    | none => exact ⟨rfl, rfl, rfl⟩
    | some e =>
      simp only
      have hfold : ∀ (ds : List Nat) (db0 : DB),
          (ds.foldl (fun acc d => hardDeleteEntity fuel s acc d) db0).schedQ =
              db0.schedQ ∧
            (ds.foldl (fun acc d => hardDeleteEntity fuel s acc d) db0).time =
              db0.time ∧
            (ds.foldl (fun acc d => hardDeleteEntity fuel s acc d) db0).nextId =
              db0.nextId := by
        intro ds
        induction ds with
        | nil => intro db0; exact ⟨rfl, rfl, rfl⟩
        | cons d ds ihds =>
          intro db0
          obtain ⟨h1, h2, h3⟩ := ihds (hardDeleteEntity fuel s db0 d)
          obtain ⟨g1, g2, g3⟩ := ih s db0 d
          exact ⟨h1.trans g1, h2.trans g2, h3.trans g3⟩
      obtain ⟨h1, h2, h3⟩ := hfold (directDepIds s db x) db
      exact ⟨h1, h2, h3⟩

/-- Once the root is requested with positive fuel, it is gone from the
result (the final `removeEntity` write, or it was never present). -/
theorem hardDel_root_removed {fuel : Nat} (s : Schema) (db : DB) (x : Nat)
    (hfuel : 1 ≤ fuel) :
    ∀ e ∈ (hardDeleteEntity fuel s db x).entities, e.id ≠ x := by
  cases fuel with
  | zero => omega
  | succ fuel =>
    rw [hardDeleteEntity]
    cases hfind : findEntity db x with
    | none =>
      intro e he
      exact findEntity_none_iff.mp hfind e he
    | some e0 =>
      simp only
      intro e he
      simp only [removeEntity] at he
      have := List.of_mem_filter he
      simpa using this

/-- Claim C3: the scheduled hard-deletion pass is guarded by the
soft-deletion marker and idempotent: if the entity's `deletionTime` was
unset before the pass runs the pass is a no-op, a pass on an
already-removed entity is a no-op, and running the pass a second time
after a pass that found the entity soft-deleted changes no state. -/
theorem scheduledPass_guard_idempotent (fuel : Nat) (s : Schema) (db : DB)
    (x : Nat) :
    (∀ e, findEntity db x = some e → e.deletionTime = none →
      scheduledDeletePass fuel s db x = db) ∧
    (findEntity db x = none → scheduledDeletePass fuel s db x = db) ∧
    (∀ e, findEntity db x = some e → e.deletionTime.isSome → 1 ≤ fuel →
      scheduledDeletePass fuel s (scheduledDeletePass fuel s db x) x =
        scheduledDeletePass fuel s db x) := by
  have hnone_noop : ∀ db0 : DB, findEntity db0 x = none →
      scheduledDeletePass fuel s db0 x = db0 := by
    intro db0 h0
    unfold scheduledDeletePass
    rw [h0]
  refine ⟨?_, hnone_noop db, ?_⟩
  · intro e hfind hnone
    unfold scheduledDeletePass
    rw [hfind]
    simp [hnone]
  · intro e hfind hsome hfuel
    have hpass : scheduledDeletePass fuel s db x = hardDeleteEntity fuel s db x := by
      unfold scheduledDeletePass
      rw [hfind]
      simp [hsome]
    have hgone : findEntity (scheduledDeletePass fuel s db x) x = none := by
      rw [hpass]
      exact findEntity_none_iff.mpr (hardDel_root_removed s db x hfuel)
    exact hnone_noop _ hgone

/-- Witness for C3: schema with a scheduled `users` table; the pass is a
no-op on an undeleted entity and on a missing id, and a second pass after
a completed pass changes nothing. -/
theorem scheduledPass_guard_idempotent_witness :
    (scheduledDeletePass 3 sSched dbLive 1 = dbLive) ∧
    (scheduledDeletePass 3 sSched dbLive 7 = dbLive) ∧
    (scheduledDeletePass 3 sSched (scheduledDeletePass 3 sSched dbMarked 1) 1 =
      scheduledDeletePass 3 sSched dbMarked 1) :=
  ⟨(scheduledPass_guard_idempotent 3 sSched dbLive 1).1
      { id := 1, table := "users", creationTime := 0, deletionTime := none,
        fields := [] } rfl rfl,
   (scheduledPass_guard_idempotent 3 sSched dbLive 7).2.1 rfl,
   (scheduledPass_guard_idempotent 3 sSched dbMarked 1).2.2
      { id := 1, table := "users", creationTime := 0, deletionTime := some 5,
        fields := [] } rfl rfl (by decide)⟩

/-! ## Skeleton congruence -/

theorem stripDT_parts {a b : Entity} (h : stripDT a = stripDT b) :
    a.id = b.id ∧ a.table = b.table ∧ a.creationTime = b.creationTime ∧
      a.fields = b.fields := by
  simp only [stripDT, Entity.mk.injEq] at h
  exact ⟨h.1, h.2.1, h.2.2.1, h.2.2.2.2⟩

theorem isSoftDep_isDep {s : Schema} {d t : Entity}
    (h : isSoftDepOf s d t = true) : isDepOf s d t = true := by
  unfold isSoftDepOf at h
  unfold isDepOf
  rw [List.any_eq_true] at h ⊢
  obtain ⟨fe, hfe, hp⟩ := h
  refine ⟨fe, hfe, ?_⟩
  simp only [Bool.and_eq_true] at hp ⊢
  obtain ⟨⟨⟨hsc, h1⟩, h2⟩, h3⟩ := hp
  exact ⟨⟨h1, h2⟩, h3⟩

theorem isDepOf_strip_congr {s : Schema} {d d' a b : Entity}
    (hd : stripDT d = stripDT d') (ha : stripDT a = stripDT b) :
    isDepOf s d a = isDepOf s d' b := by
  have h1 : d.table = d'.table := (stripDT_parts hd).2.1
  have h2 : d.fields = d'.fields := (stripDT_parts hd).2.2.2
  have h3 : a.table = b.table := (stripDT_parts ha).2.1
  have h4 : a.id = b.id := (stripDT_parts ha).1
  unfold isDepOf
  simp only [h1, h2, h3, h4]

theorem isSoftDepOf_strip_congr {s : Schema} {d d' a b : Entity}
    (hd : stripDT d = stripDT d') (ha : stripDT a = stripDT b) :
    isSoftDepOf s d a = isSoftDepOf s d' b := by
  have h1 : d.table = d'.table := (stripDT_parts hd).2.1
  have h2 : d.fields = d'.fields := (stripDT_parts hd).2.2.2
  have h3 : a.table = b.table := (stripDT_parts ha).2.1
  have h4 : a.id = b.id := (stripDT_parts ha).1
  unfold isSoftDepOf
  simp only [h1, h2, h3, h4]

theorem strip_find_congr {x : Nat} :
    ∀ {l1 l2 : List Entity}, l1.map stripDT = l2.map stripDT →
      Option.map stripDT (l1.find? (fun e => e.id == x)) =
        Option.map stripDT (l2.find? (fun e => e.id == x)) := by
  intro l1
  induction l1 with
  | nil =>
    intro l2 h
    cases l2 with
    | nil => rfl
    | cons b t2 => exact absurd h (by simp)
  | cons a t1 ih =>
    intro l2 h
    cases l2 with
    | nil => exact absurd h (by simp)
    | cons b t2 =>
      simp only [List.map_cons, List.cons.injEq] at h
      have hid : a.id = b.id := (stripDT_parts h.1).1
      rw [List.find?_cons, List.find?_cons, hid]
      cases hb : (b.id == x) with
      | true =>
        simp only [hb]
        simpa using congrArg some h.1
      | false =>
        simp only [hb]
        exact ih h.2

theorem strip_filter_map_congr {p q : Entity → Bool}
    (hpq : ∀ u v, stripDT u = stripDT v → p u = q v) :
    ∀ {l1 l2 : List Entity}, l1.map stripDT = l2.map stripDT →
      (l1.filter p).map (·.id) = (l2.filter q).map (·.id) := by
  intro l1
  induction l1 with
  | nil =>
    intro l2 h
    cases l2 with
    | nil => rfl
    | cons b t2 => exact absurd h (by simp)
  | cons a t1 ih =>
    intro l2 h
    cases l2 with
    | nil => exact absurd h (by simp)
    | cons b t2 =>
      simp only [List.map_cons, List.cons.injEq] at h
      have hab : p a = q b := hpq a b h.1
      rw [List.filter_cons, List.filter_cons, hab]
      cases hb : (q b) with
      | true =>
        simp only [hb, if_true, List.map_cons]
        rw [(stripDT_parts h.1).1, ih h.2]
      | false =>
        simp only [hb, Bool.false_eq_true, if_false]
        exact ih h.2

theorem directDepIds_skel {s : Schema} {db1 db2 : DB} (h : SameSkel db1 db2)
    (x : Nat) : directDepIds s db1 x = directDepIds s db2 x := by
  have hf := strip_find_congr (x := x) h
  unfold directDepIds findEntity
  cases h1 : db1.entities.find? (fun e => e.id == x) with
  | none =>
    cases h2 : db2.entities.find? (fun e => e.id == x) with
    | none => rfl
    | some b => rw [h1, h2] at hf; exact absurd hf (by simp)
  | some a =>
    cases h2 : db2.entities.find? (fun e => e.id == x) with
    | none => rw [h1, h2] at hf; exact absurd hf (by simp)
    | some b =>
      rw [h1, h2] at hf
      have hab : stripDT a = stripDT b := by simpa using hf
      exact strip_filter_map_congr
        (fun u v huv => isDepOf_strip_congr huv hab) h

theorem directSoftDepIds_skel {s : Schema} {db1 db2 : DB}
    (h : SameSkel db1 db2) (x : Nat) :
    directSoftDepIds s db1 x = directSoftDepIds s db2 x := by
  have hf := strip_find_congr (x := x) h
  unfold directSoftDepIds findEntity
  cases h1 : db1.entities.find? (fun e => e.id == x) with
  | none =>
    cases h2 : db2.entities.find? (fun e => e.id == x) with
    | none => rfl
    | some b => rw [h1, h2] at hf; exact absurd hf (by simp)
  | some a =>
    cases h2 : db2.entities.find? (fun e => e.id == x) with
    | none => rw [h1, h2] at hf; exact absurd hf (by simp)
    | some b =>
      rw [h1, h2] at hf
      have hab : stripDT a = stripDT b := by simpa using hf
      exact strip_filter_map_congr
        (fun u v huv => isSoftDepOf_strip_congr huv hab) h

theorem hardStep_skel {s : Schema} {db1 db2 : DB} (h : SameSkel db1 db2) :
    HardStep s db1 = HardStep s db2 := by
  funext a b
  unfold HardStep
  rw [directDepIds_skel h a]

theorem softStep_skel {s : Schema} {db1 db2 : DB} (h : SameSkel db1 db2) :
    SoftStep s db1 = SoftStep s db2 := by
  funext a b
  unfold SoftStep
  rw [directSoftDepIds_skel h a]

theorem transDep_skel {s : Schema} {db1 db2 : DB} (h : SameSkel db1 db2)
    (x d : Nat) : TransDep s db1 x d ↔ TransDep s db2 x d := by
  unfold TransDep
  rw [hardStep_skel h]

theorem transSoftDep_skel {s : Schema} {db1 db2 : DB} (h : SameSkel db1 db2)
    (x d : Nat) : TransSoftDep s db1 x d ↔ TransSoftDep s db2 x d := by
  unfold TransSoftDep
  rw [softStep_skel h]

/-! ## Dependency steps increase ids under `OrderedDeps` -/

theorem hardStep_lt {s : Schema} {db : DB} {a b : Nat} (h : OrderedDeps s db)
    (hs : HardStep s db a b) : a < b := by
  unfold HardStep directDepIds at hs
  cases hf : findEntity db a with
  | none => rw [hf] at hs; simp at hs
  | some e =>
    rw [hf] at hs
    simp only [List.mem_map] at hs
    obtain ⟨d, hd, hdid⟩ := hs
    have hdm : d ∈ db.entities := List.mem_of_mem_filter hd
    have hdp : isDepOf s d e = true := by
      have := List.of_mem_filter hd
      simpa using this
    have hlt : e.id < d.id := h d hdm e (findEntity_some_mem hf) hdp
    rw [findEntity_some_id hf] at hlt
    exact hdid ▸ hlt

theorem softStep_lt {s : Schema} {db : DB} {a b : Nat} (h : OrderedDeps s db)
    (hs : SoftStep s db a b) : a < b := by
  unfold SoftStep directSoftDepIds at hs
  cases hf : findEntity db a with
  | none => rw [hf] at hs; simp at hs
  | some e =>
    rw [hf] at hs
    simp only [List.mem_map] at hs
    obtain ⟨d, hd, hdid⟩ := hs
    have hdm : d ∈ db.entities := List.mem_of_mem_filter hd
    have hdp : isDepOf s d e = true := by
      have := List.of_mem_filter hd
      exact isSoftDep_isDep (by simpa using this)
    have hlt : e.id < d.id := h d hdm e (findEntity_some_mem hf) hdp
    rw [findEntity_some_id hf] at hlt
    exact hdid ▸ hlt

theorem transDep_lt {s : Schema} {db : DB} {x d : Nat} (h : OrderedDeps s db)
    (ht : TransDep s db x d) : x < d := by
  induction ht with
  | single hs => exact hardStep_lt h hs
  | tail _ hs ih => exact lt_trans ih (hardStep_lt h hs)

theorem transSoftDep_lt {s : Schema} {db : DB} {x d : Nat}
    (h : OrderedDeps s db) (ht : TransSoftDep s db x d) : x < d := by
  induction ht with
  | single hs => exact softStep_lt h hs
  | tail _ hs ih => exact lt_trans ih (softStep_lt h hs)

/-! ## Soft deletion lemmas -/

theorem softDel_frame :
    ∀ (fuel : Nat) (s : Schema) (db : DB) (x t : Nat),
      (softDeleteEntity fuel s db x t).joinRows = db.joinRows ∧
      (softDeleteEntity fuel s db x t).schedQ = db.schedQ ∧
      (softDeleteEntity fuel s db x t).nextId = db.nextId ∧
      (softDeleteEntity fuel s db x t).time = db.time := by
  intro fuel
  induction fuel with
  | zero => intro s db x t; exact ⟨rfl, rfl, rfl, rfl⟩
  | succ fuel ih =>
    intro s db x t
    rw [softDeleteEntity]
    cases findEntity db x with
    | none => exact ⟨rfl, rfl, rfl, rfl⟩
    | some e =>
      simp only
      have hfold : ∀ (ds : List Nat) (db0 : DB),
          (ds.foldl (fun acc d => softDeleteEntity fuel s acc d t) db0).joinRows =
              db0.joinRows ∧
            (ds.foldl (fun acc d => softDeleteEntity fuel s acc d t) db0).schedQ =
              db0.schedQ ∧
            (ds.foldl (fun acc d => softDeleteEntity fuel s acc d t) db0).nextId =
              db0.nextId ∧
            (ds.foldl (fun acc d => softDeleteEntity fuel s acc d t) db0).time =
              db0.time := by
        intro ds
        induction ds with
        | nil => intro db0; exact ⟨rfl, rfl, rfl, rfl⟩
        | cons d ds ihds =>
          intro db0
          obtain ⟨h1, h2, h3, h4⟩ := ihds (softDeleteEntity fuel s db0 d t)
          obtain ⟨g1, g2, g3, g4⟩ := ih s db0 d t
          exact ⟨h1.trans g1, h2.trans g2, h3.trans g3, h4.trans g4⟩
      obtain ⟨h1, h2, h3, h4⟩ := hfold (directSoftDepIds s db x) (setDeletionTime db x t)
      exact ⟨h1, h2, h3, h4⟩

theorem setDeletionTime_skel (db : DB) (x t : Nat) :
    SameSkel (setDeletionTime db x t) db := by
  unfold SameSkel setDeletionTime
  simp only [List.map_map]
  refine List.map_congr_left ?_
  intro e _
  by_cases h : e.id = x <;> simp [h, stripDT]

theorem softDel_skel :
    ∀ (fuel : Nat) (s : Schema) (db : DB) (x t : Nat),
      SameSkel (softDeleteEntity fuel s db x t) db := by
  intro fuel
  induction fuel with
  | zero => intro s db x t; rfl
  | succ fuel ih =>
    intro s db x t
    rw [softDeleteEntity]
    cases findEntity db x with
    | none => rfl
    | some e =>
      simp only
      have hfold : ∀ (ds : List Nat) (db0 : DB),
          SameSkel (ds.foldl (fun acc d => softDeleteEntity fuel s acc d t) db0)
            db0 := by
        intro ds
        induction ds with
        | nil => intro db0; rfl
        | cons d ds ihds =>
          intro db0
          exact (ihds (softDeleteEntity fuel s db0 d t)).trans (ih s db0 d t)
      exact (hfold (directSoftDepIds s db x) (setDeletionTime db x t)).trans
        (setDeletionTime_skel db x t)

theorem softDel_untouched :
    ∀ (fuel : Nat) (s : Schema) (db : DB) (x t : Nat) (e : Entity),
      e ∈ db.entities → e.id ≠ x → ¬ TransSoftDep s db x e.id →
      e ∈ (softDeleteEntity fuel s db x t).entities := by
  intro fuel
  induction fuel with
  | zero => intro s db x t e he _ _; exact he
  | succ fuel ih =>
    intro s db x t e he hne hnr
    rw [softDeleteEntity]
    cases hfind : findEntity db x with
    | none => exact he
    | some e0 =>
      simp only
      have he1 : e ∈ (setDeletionTime db x t).entities := by
        unfold setDeletionTime
        simp only [List.mem_map]
        refine ⟨e, he, ?_⟩
        simp [hne]
      have hys : ∀ y ∈ directSoftDepIds s db x, SoftStep s db x y :=
        fun y hy => hy
      have hfold : ∀ (ds : List Nat), (∀ y ∈ ds, SoftStep s db x y) →
          ∀ db0 : DB, SameSkel db0 db → e ∈ db0.entities →
          e ∈ (ds.foldl (fun acc d => softDeleteEntity fuel s acc d t)
            db0).entities := by
        intro ds
        induction ds with
        | nil => intro _ db0 _ he0; exact he0
        | cons y ds ihds =>
          intro hds db0 hskel he0
          have hy : SoftStep s db x y := hds y (List.mem_cons_self y ds)
          have hney : e.id ≠ y := by
            intro hcontra
            exact hnr (hcontra ▸ Relation.TransGen.single hy)
          have hnry : ¬ TransSoftDep s db0 y e.id := by
            intro hcontra
            have : TransSoftDep s db y e.id := (transSoftDep_skel hskel _ _).mp hcontra
            exact hnr (Relation.TransGen.head hy this)
          refine ihds (fun z hz => hds z (List.mem_cons_of_mem y hz)) _ ?_ ?_
          · exact (softDel_skel fuel s db0 y t).trans hskel
          · exact ih s db0 y t e he0 hney hnry
      exact hfold (directSoftDepIds s db x) hys (setDeletionTime db x t)
        (setDeletionTime_skel db x t) he1

/-! ## Claim C4 (corrected) -/

/-- Counterexample to claim C4 as stated: in `dbC4` the `users` entity 1
(policy `soft`) has a many:many join row to the profile entity 2, which
is also its soft-cascade dependent via the `userId` field edge; after
`delete(1)` the far entity 2 across that join row has changed (it was
soft-deleted by the cascade). -/
theorem softDelete_far_entity_counterexample :
    (∃ r ∈ dbC4.joinRows, rowRefs r 1 = true ∧ r.field2 = 2) ∧
    sSoft.policyOf "users" = .soft ∧
    findEntity (deleteEnt 5 sSoft dbC4 1) 2 ≠ findEntity dbC4 2 := by
  decide

/-- Claim C4, amended: soft deletion never touches many:many edges: the
join rows are unchanged, and every entity that is neither the deleted
entity nor one of its (transitive) soft-cascade dependents — in
particular any far entity across a join row that is not also such a
dependent — is unchanged.  (As stated the claim fails when a far entity
across a join row is simultaneously a soft-cascade dependent via a field
edge; see the counterexample.) -/
theorem softDelete_frame_many_many (fuel : Nat) (s : Schema) (db : DB)
    (x t : Nat) :
    (softDeleteEntity fuel s db x t).joinRows = db.joinRows ∧
    (∀ e ∈ db.entities, e.id ≠ x → ¬ TransSoftDep s db x e.id →
      e ∈ (softDeleteEntity fuel s db x t).entities) ∧
    (∀ e, findEntity db x = some e → s.policyOf e.table = .soft →
      (deleteEnt fuel s db x).joinRows = db.joinRows) := by
  refine ⟨(softDel_frame fuel s db x t).1,
    fun e he hne hnr => softDel_untouched fuel s db x t e he hne hnr, ?_⟩
  intro e hfind hpol
  unfold deleteEnt
  rw [hfind]
  simp only [hpol]
  exact (softDel_frame fuel s db x db.time).1

/-- Witness for C4 (amended) on `dbC4`: the join rows survive the soft
deletion of entity 1, and the unrelated far entity 0 (not a soft-cascade
dependent, shown via `transSoftDep_lt` since 0 < 1) is untouched; the
`deleteEnt` dispatch for the `soft` policy also preserves the join rows. -/
theorem softDelete_frame_many_many_witness :
    (softDeleteEntity 5 sSoft dbC4 1 7).joinRows = dbC4.joinRows ∧
    { id := 0, table := "widgets", creationTime := 0,
      deletionTime := none, fields := [] } ∈
      (softDeleteEntity 5 sSoft dbC4 1 7).entities ∧
    (deleteEnt 5 sSoft dbC4 1).joinRows = dbC4.joinRows := by
  have hord : OrderedDeps sSoft dbC4 := by unfold OrderedDeps; decide
  have h := softDelete_frame_many_many 5 sSoft dbC4 1 7
  refine ⟨h.1, ?_, ?_⟩
  · refine h.2.1 _ (by decide) (by decide) ?_
    intro hcontra
    exact absurd (transSoftDep_lt hord hcontra) (by decide)
  · exact h.2.2
      { id := 1, table := "users", creationTime := 1, deletionTime := none,
        fields := [] } rfl rfl

/-! ## Write-layer inversion lemmas -/

theorem insertEnt_ok_inv {s : Schema} {db : DB} {table : String}
    {fields : List (String × Nat)} {db' : DB}
    (h : insertEnt s db table fields = .ok db') :
    requiredFieldsOk s table fields = true ∧
    uniqueOk s db table none fields = true ∧
    refsOk s db table fields = true ∧
    db' = { db with
      entities := db.entities ++
        [{ id := db.nextId, table := table, creationTime := db.time,
           deletionTime := none, fields := fields }]
      nextId := db.nextId + 1
      time := db.time + 1 } := by
  unfold insertEnt at h
  split at h
  · split at h
    · split at h
      · exact ⟨by assumption, by assumption, by assumption,
          (Except.ok.inj h).symm⟩
      · exact absurd h (by simp)
    · exact absurd h (by simp)
  · exact absurd h (by simp)

theorem patchEnt_ok_inv {s : Schema} {db : DB} {x : Nat}
    {fields : List (String × Nat)} {db' : DB}
    (h : patchEnt s db x fields = .ok db') :
    ∃ e, findEntity db x = some e ∧
      uniqueOk s db e.table (some x) fields = true ∧
      refsOk s db e.table fields = true ∧
      db' = { db with
        entities := db.entities.map (fun d =>
          if d.id == x then { d with fields := fields ++ d.fields } else d)
        time := db.time + 1 } := by
  unfold patchEnt at h
  split at h
  · exact absurd h (by simp)
  next e hf =>
    split at h
    · split at h
      · exact ⟨e, hf, by assumption, by assumption, (Except.ok.inj h).symm⟩
      · exact absurd h (by simp)
    · exact absurd h (by simp)

theorem replaceEnt_ok_inv {s : Schema} {db : DB} {x : Nat}
    {fields : List (String × Nat)} {db' : DB}
    (h : replaceEnt s db x fields = .ok db') :
    ∃ e, findEntity db x = some e ∧
      requiredFieldsOk s e.table fields = true ∧
      uniqueOk s db e.table (some x) fields = true ∧
      refsOk s db e.table fields = true ∧
      db' = { db with
        entities := db.entities.map (fun d =>
          if d.id == x then { d with fields := fields } else d)
        time := db.time + 1 } := by
  unfold replaceEnt at h
  split at h
  · exact absurd h (by simp)
  next e hf =>
    split at h
    · split at h
      · split at h
        · exact ⟨e, hf, by assumption, by assumption, by assumption,
            (Except.ok.inj h).symm⟩
        · exact absurd h (by simp)
      · exact absurd h (by simp)
    · exact absurd h (by simp)

/-! ## Uniqueness check lemmas -/

theorem uniqueOk_no_conflict {s : Schema} {db : DB} {table : String}
    {selfId : Option Nat} {fields : List (String × Nat)}
    (h : uniqueOk s db table selfId fields = true) {f : String} {v : Nat}
    (hf : f ∈ s.uniqueFieldsOf table) (hv : fields.lookup f = some v) :
    ∀ e ∈ db.entities, e.table = table → (∀ i, selfId = some i → e.id ≠ i) →
      e.fields.lookup f ≠ some v := by
  unfold uniqueOk at h
  rw [List.all_eq_true] at h
  have hcheck := h f hf
  rw [hv] at hcheck
  simp only [Bool.not_eq_eq_eq_not, Bool.not_true] at hcheck
  rw [List.any_eq_false] at hcheck
  intro e he htab hself hcontra
  apply hcheck e he
  simp only [Bool.and_eq_true, beq_iff_eq]
  refine ⟨⟨htab, ?_⟩, hcontra⟩
  cases selfId with
  | none => rfl
  | some i => simpa using hself i rfl

theorem uniqueOk_false_of_conflict {s : Schema} {db : DB} {table : String}
    {selfId : Option Nat} {fields : List (String × Nat)} {f : String}
    {v : Nat} {e : Entity} (hf : f ∈ s.uniqueFieldsOf table)
    (hv : fields.lookup f = some v) (he : e ∈ db.entities)
    (htab : e.table = table) (hself : ∀ i, selfId = some i → e.id ≠ i)
    (hev : e.fields.lookup f = some v) :
    uniqueOk s db table selfId fields = false := by
  cases hu : uniqueOk s db table selfId fields with
  | false => rfl
  | true =>
    exact absurd hev (uniqueOk_no_conflict hu hf hv e he htab hself)

theorem lookup_append {α β : Type} [BEq α] :
    ∀ (l1 l2 : List (α × β)) (a : α),
      (l1 ++ l2).lookup a = ((l1.lookup a).or (l2.lookup a)) := by
  intro l1
  induction l1 with
  | nil => intro l2 a; rfl
  | cons p t ih =>
    intro l2 a
    rw [List.cons_append]
    show List.lookup a (p :: (t ++ l2)) = _
    rw [List.lookup_cons, List.lookup_cons]
    cases a == p.1 with
    | true => rfl
    | false => exact ih l2 a

/-! ## Well-formedness transfer -/

theorem ids_map_strip (l : List Entity) :
    (l.map stripDT).map (·.id) = l.map (·.id) := by
  rw [List.map_map]
  rfl

theorem WF_of_strip_sublist {s : Schema} {db db' : DB}
    (h : List.Sublist (db'.entities.map stripDT) (db.entities.map stripDT))
    (hn : db.nextId ≤ db'.nextId) (hwf : WF s db) : WF s db' := by
  obtain ⟨hib, hnd, hui⟩ := hwf
  have hmem : ∀ e' ∈ db'.entities, ∃ e ∈ db.entities, stripDT e = stripDT e' := by
    intro e' he'
    have : stripDT e' ∈ db.entities.map stripDT :=
      h.subset (List.mem_map_of_mem _ he')
    obtain ⟨e, he, heq⟩ := List.mem_map.mp this
    exact ⟨e, he, heq⟩
  refine ⟨?_, ?_, ?_⟩
  · intro e' he'
    obtain ⟨e, he, heq⟩ := hmem e' he'
    have hid : e.id = e'.id := (stripDT_parts heq).1
    calc e'.id = e.id := hid.symm
      _ < db.nextId := hib e he
      _ ≤ db'.nextId := hn
  · have h2 := h.map (·.id)
    rw [ids_map_strip, ids_map_strip] at h2
    exact List.Nodup.sublist h2 hnd
  · intro e1' he1' e2' he2' hne htab f hf v hv
    obtain ⟨e1, he1, heq1⟩ := hmem e1' he1'
    obtain ⟨e2, he2, heq2⟩ := hmem e2' he2'
    obtain ⟨hid1, htab1, _, hfl1⟩ := stripDT_parts heq1
    obtain ⟨hid2, htab2, _, hfl2⟩ := stripDT_parts heq2
    have := hui e1 he1 e2 he2 (by rw [hid1, hid2]; exact hne)
      (by rw [htab1, htab2]; exact htab) f (by rw [htab1]; exact hf) v
      (by rw [hfl1]; exact hv)
    rw [hfl2] at this
    exact this

theorem deleteEnt_strip (fuel : Nat) (s : Schema) (db : DB) (x : Nat) :
    List.Sublist ((deleteEnt fuel s db x).entities.map stripDT)
      (db.entities.map stripDT) ∧
    (deleteEnt fuel s db x).nextId = db.nextId := by
  unfold deleteEnt
  cases findEntity db x with
  | none => exact ⟨List.Sublist.refl _, rfl⟩
  | some e =>
    simp only
    cases s.policyOf e.table with
    | hard =>
      exact ⟨(hardDel_entities_sublist fuel s db x).map stripDT,
        (hardDel_schedQ_time_nextId fuel s db x).2.2⟩
    | soft =>
      constructor
      · rw [softDel_skel fuel s db x db.time]
      · exact (softDel_frame fuel s db x db.time).2.2.1
    | scheduled delayMs =>
      constructor
      · show List.Sublist
          ((softDeleteEntity fuel s db x db.time).entities.map stripDT) _
        rw [softDel_skel fuel s db x db.time]
      · exact (softDel_frame fuel s db x db.time).2.2.1

theorem scheduledPass_strip (fuel : Nat) (s : Schema) (db : DB) (x : Nat) :
    List.Sublist ((scheduledDeletePass fuel s db x).entities.map stripDT)
      (db.entities.map stripDT) ∧
    (scheduledDeletePass fuel s db x).nextId = db.nextId := by
  unfold scheduledDeletePass
  cases findEntity db x with
  | none => exact ⟨List.Sublist.refl _, rfl⟩
  | some e =>
    simp only
    by_cases hd : e.deletionTime.isSome = true
    · rw [if_pos hd]
      exact ⟨(hardDel_entities_sublist fuel s db x).map stripDT,
        (hardDel_schedQ_time_nextId fuel s db x).2.2⟩
    · rw [if_neg hd]
      exact ⟨List.Sublist.refl _, rfl⟩

theorem undelete_skel (db : DB) (x : Nat) : SameSkel (undeleteEnt db x) db := by
  unfold SameSkel undeleteEnt
  simp only [List.map_map]
  refine List.map_congr_left ?_
  intro e _
  by_cases h : e.id = x <;> simp [h, stripDT]

/-! ## Well-formedness preservation by writes -/

theorem WF_insert {s : Schema} {db : DB} {table : String}
    {fields : List (String × Nat)} {db' : DB} (hwf : WF s db)
    (h : insertEnt s db table fields = .ok db') : WF s db' := by
  obtain ⟨hib, hnd, hui⟩ := hwf
  obtain ⟨h1, h2, h3, rfl⟩ := insertEnt_ok_inv h
  refine ⟨?_, ?_, ?_⟩
  · intro e he
    simp only [List.mem_append, List.mem_singleton] at he
    show e.id < db.nextId + 1
    cases he with
    | inl hold => exact lt_trans (hib e hold) (Nat.lt_succ_self _)
    | inr hnew => rw [hnew]; exact Nat.lt_succ_self _
  · show ((db.entities ++
      [({ id := db.nextId, table := table, creationTime := db.time,
          deletionTime := none, fields := fields } : Entity)]).map
        (·.id)).Nodup
    rw [List.map_append]
    refine List.Nodup.append hnd (List.nodup_singleton _) ?_
    intro a ha hb
    obtain ⟨e, he, rfl⟩ := List.mem_map.mp ha
    simp only [List.map_cons, List.map_nil, List.mem_singleton] at hb
    exact absurd hb (Nat.ne_of_lt (hib e he))
  · intro e1 he1 e2 he2 hne htab f hf v hv
    simp only [List.mem_append, List.mem_singleton] at he1 he2
    cases he1 with
    | inl hm1 =>
      cases he2 with
      | inl hm2 => exact hui e1 hm1 e2 hm2 hne htab f hf v hv
      | inr hm2 =>
        subst hm2
        intro hcontra
        have htab2 : e1.table = table := by simpa using htab
        have hf' : f ∈ s.uniqueFieldsOf table := htab2 ▸ hf
        exact uniqueOk_no_conflict h2 hf' hcontra e1 hm1 htab2
          (fun i hi => Option.noConfusion hi) hv
    | inr hm1 =>
      subst hm1
      cases he2 with
      | inl hm2 =>
        have hf' : f ∈ s.uniqueFieldsOf table := hf
        have htab2 : e2.table = table := by simpa using htab.symm
        exact uniqueOk_no_conflict h2 hf' hv e2 hm2 htab2
          (fun i hi => Option.noConfusion hi)
      | inr hm2 =>
        subst hm2
        exact absurd rfl hne

theorem WF_update {s : Schema} {db : DB} {x : Nat}
    {fields : List (String × Nat)} {e0 : Entity} (hwf : WF s db)
    (hf0 : findEntity db x = some e0)
    (h2 : uniqueOk s db e0.table (some x) fields = true)
    (F : Entity → List (String × Nat))
    (hF : ∀ d f v, (F d).lookup f = some v →
      fields.lookup f = some v ∨
        (fields.lookup f = none ∧ d.fields.lookup f = some v)) :
    WF s { db with
      entities := db.entities.map (fun d =>
        if d.id == x then { d with fields := F d } else d)
      time := db.time + 1 } := by
  obtain ⟨hib, hnd, hui⟩ := hwf
  have he0m := findEntity_some_mem hf0
  have he0id := findEntity_some_id hf0
  set g := fun d : Entity =>
    if d.id == x then { d with fields := F d } else d with hg
  have hgid : ∀ d : Entity, (g d).id = d.id := by
    intro d
    by_cases hd : d.id = x <;> simp [hg, hd]
  have hgtab : ∀ d : Entity, (g d).table = d.table := by
    intro d
    by_cases hd : d.id = x <;> simp [hg, hd]
  have hids : (db.entities.map g).map (·.id) = db.entities.map (·.id) := by
    rw [List.map_map]
    exact List.map_congr_left (fun d _ => hgid d)
  refine ⟨?_, ?_, ?_⟩
  · intro e' he'
    obtain ⟨d, hd, rfl⟩ := List.mem_map.mp he'
    show (g d).id < db.nextId
    rw [hgid]
    exact hib d hd
  · show ((db.entities.map g).map (·.id)).Nodup
    rw [hids]
    exact hnd
  · intro e1' he1' e2' he2' hne htab f hf v hv
    obtain ⟨d1, hd1, rfl⟩ := List.mem_map.mp he1'
    obtain ⟨d2, hd2, rfl⟩ := List.mem_map.mp he2'
    have hne' : d1.id ≠ d2.id := by rwa [hgid, hgid] at hne
    have htab' : d1.table = d2.table := by rwa [hgtab, hgtab] at htab
    have hf' : f ∈ s.uniqueFieldsOf d1.table := by rwa [hgtab] at hf
    by_cases hx1 : d1.id = x
    · by_cases hx2 : d2.id = x
      · exact absurd (hx1.trans hx2.symm) hne'
      · have hd1e0 : d1 = e0 := mem_id_inj hnd hd1 he0m (hx1.trans he0id.symm)
        have hfe1 : (g d1).fields = F d1 := by simp [hg, hx1]
        have hg2 : g d2 = d2 := by simp [hg, hx2]
        rw [hfe1] at hv
        rw [hg2]
        cases hF d1 f v hv with
        | inl hin =>
          have hftab : f ∈ s.uniqueFieldsOf e0.table := hd1e0 ▸ hf'
          exact uniqueOk_no_conflict h2 hftab hin d2 hd2
            (htab'.symm.trans (congrArg Entity.table hd1e0))
            (fun i hi => by injection hi with hii; rw [← hii]; exact hx2)
        | inr hold =>
          exact hui d1 hd1 d2 hd2 hne' htab' f hf' v hold.2
    · by_cases hx2 : d2.id = x
      · have hd2e0 : d2 = e0 := mem_id_inj hnd hd2 he0m (hx2.trans he0id.symm)
        have hg1 : g d1 = d1 := by simp [hg, hx1]
        have hfe2 : (g d2).fields = F d2 := by simp [hg, hx2]
        rw [hg1] at hv
        rw [hfe2]
        intro hcontra
        cases hF d2 f v hcontra with
        | inl hin =>
          have hftab : f ∈ s.uniqueFieldsOf e0.table :=
            (congrArg Entity.table hd2e0) ▸ htab' ▸ hf'
          exact uniqueOk_no_conflict h2 hftab hin d1 hd1
            (htab'.trans (congrArg Entity.table hd2e0))
            (fun i hi => by injection hi with hii; rw [← hii]; exact hx1) hv
        | inr hold =>
          exact hui d2 hd2 d1 hd1 (Ne.symm hne') htab'.symm f
            (htab' ▸ hf') v hold.2 hv
      · have hg1 : g d1 = d1 := by simp [hg, hx1]
        have hg2 : g d2 = d2 := by simp [hg, hx2]
        rw [hg1] at hv
        rw [hg2]
        exact hui d1 hd1 d2 hd2 hne' htab' f hf' v hv

theorem WF_patch {s : Schema} {db : DB} {x : Nat}
    {fields : List (String × Nat)} {db' : DB} (hwf : WF s db)
    (h : patchEnt s db x fields = .ok db') : WF s db' := by
  obtain ⟨e0, hf0, h2, h3, rfl⟩ := patchEnt_ok_inv h
  refine WF_update hwf hf0 h2 (fun d => fields ++ d.fields) ?_
  intro d f v hv
  rw [lookup_append] at hv
  cases hfl : fields.lookup f with
  | some w =>
    rw [hfl] at hv
    simp only [Option.or_some] at hv
    left
    exact hv
  | none =>
    rw [hfl] at hv
    simp only [Option.none_or] at hv
    exact Or.inr ⟨rfl, hv⟩

theorem WF_replace {s : Schema} {db : DB} {x : Nat}
    {fields : List (String × Nat)} {db' : DB} (hwf : WF s db)
    (h : replaceEnt s db x fields = .ok db') : WF s db' := by
  obtain ⟨e0, hf0, h1, h2, h3, rfl⟩ := replaceEnt_ok_inv h
  exact WF_update hwf hf0 h2 (fun _ => fields) (fun d f v hv => Or.inl hv)

theorem WF_empty (s : Schema) : WF s DB.empty := by
  refine ⟨?_, ?_, ?_⟩
  · intro e he
    exact absurd he (List.not_mem_nil e)
  · exact List.nodup_nil
  · intro e1 he1
    exact absurd he1 (List.not_mem_nil e1)

/-- Every reachable store is well-formed: fresh ids are monotone, ids
are unique, and each table's unique fields are held by at most one
entity. -/
theorem reachable_WF {s : Schema} {db : DB} (h : Reachable s db) :
    WF s db := by
  induction h with
  | empty => exact WF_empty s
  | insert _ hok ih => exact WF_insert ih hok
  | patch _ hok ih => exact WF_patch ih hok
  | replace _ hok ih => exact WF_replace ih hok
  | @connect db0 jt a b _ ih =>
    exact @WF_of_strip_sublist s db0 (addJoinRow db0 jt a b)
      (List.Sublist.refl _) (Nat.le_succ db0.nextId) ih
  | @delete db0 fuel x _ ih =>
    exact WF_of_strip_sublist (deleteEnt_strip fuel s db0 x).1
      (le_of_eq (deleteEnt_strip fuel s db0 x).2.symm) ih
  | @pass db0 fuel x _ ih =>
    exact WF_of_strip_sublist (scheduledPass_strip fuel s db0 x).1
      (le_of_eq (scheduledPass_strip fuel s db0 x).2.symm) ih
  | @undelete db0 x _ ih =>
    refine @WF_of_strip_sublist s db0 (undeleteEnt db0 x) ?_ (le_refl _) ih
    rw [undelete_skel db0 x]

/-! ## Reference check lemmas -/

theorem requiredOk_some {s : Schema} {table : String}
    {fields : List (String × Nat)}
    (h : requiredFieldsOk s table fields = true) {fe : FieldEdge}
    (hfe : fe ∈ s.fieldEdgesFrom table) :
    ∃ v, fields.lookup fe.field = some v := by
  unfold requiredFieldsOk at h
  rw [List.all_eq_true] at h
  have := h fe hfe
  rwa [Option.isSome_iff_exists] at this

theorem refsOk_resolves {s : Schema} {db : DB} {table : String}
    {fields : List (String × Nat)} (h : refsOk s db table fields = true)
    {fe : FieldEdge} (hfe : fe ∈ s.fieldEdgesFrom table) {v : Nat}
    (hv : fields.lookup fe.field = some v) :
    ∃ w ∈ db.entities, w.id = v ∧ w.table = fe.targetTable := by
  unfold refsOk at h
  rw [List.all_eq_true] at h
  have hcheck := h fe hfe
  rw [hv] at hcheck
  rw [List.any_eq_true] at hcheck
  obtain ⟨w, hw, hp⟩ := hcheck
  simp only [Bool.and_eq_true, beq_iff_eq] at hp
  exact ⟨w, hw, hp.1, hp.2⟩

theorem refsOk_false_of_dangling {s : Schema} {db : DB} {table : String}
    {fields : List (String × Nat)} {fe : FieldEdge} {v : Nat}
    (hfe : fe ∈ s.fieldEdgesFrom table)
    (hv : fields.lookup fe.field = some v)
    (hno : ∀ w ∈ db.entities, ¬(w.id = v ∧ w.table = fe.targetTable)) :
    refsOk s db table fields = false := by
  cases hr : refsOk s db table fields with
  | false => rfl
  | true =>
    obtain ⟨w, hw, hwid, hwtab⟩ := refsOk_resolves hr hfe hv
    exact absurd ⟨hwid, hwtab⟩ (hno w hw)

theorem count_id_one {db : DB} (hnd : NodupIds db) {w : Entity}
    (hw : w ∈ db.entities) :
    db.entities.countP (fun d => d.id == w.id) = 1 := by
  have h1 : db.entities.countP (fun d => d.id == w.id) =
      (db.entities.map (·.id)).count w.id := by
    rw [List.count, List.countP_map]
    rfl
  rw [h1]
  exact List.count_eq_one_of_mem hnd (List.mem_map_of_mem _ hw)

/-! ## Claim C5 -/

/-- Claim C5: at every reachable state, at most one entity of a table
holds any given value of a unique field; and on every insert, patch or
replace that sets a unique field to a value a conflicting existing
entity already holds, the indexed conflict lookup makes the operation
fail with a uniqueness-violation error before any write is committed
(the erroring operation returns no store). -/
theorem unique_field_enforcement (s : Schema) (db : DB) :
    (Reachable s db → UniqueInv s db) ∧
    (∀ table fields f v e, f ∈ s.uniqueFieldsOf table →
      fields.lookup f = some v → e ∈ db.entities → e.table = table →
      e.fields.lookup f = some v → requiredFieldsOk s table fields = true →
      insertEnt s db table fields = .error .uniquenessViolation) ∧
    (∀ x fields f v e0 e, findEntity db x = some e0 →
      f ∈ s.uniqueFieldsOf e0.table → fields.lookup f = some v →
      e ∈ db.entities → e.table = e0.table → e.id ≠ x →
      e.fields.lookup f = some v →
      patchEnt s db x fields = .error .uniquenessViolation) ∧
    (∀ x fields f v e0 e, findEntity db x = some e0 →
      requiredFieldsOk s e0.table fields = true →
      f ∈ s.uniqueFieldsOf e0.table → fields.lookup f = some v →
      e ∈ db.entities → e.table = e0.table → e.id ≠ x →
      e.fields.lookup f = some v →
      replaceEnt s db x fields = .error .uniquenessViolation) := by
  refine ⟨fun h => (reachable_WF h).2.2, ?_, ?_, ?_⟩
  · intro table fields f v e hf hv he htab hev hreq
    have hfalse : uniqueOk s db table none fields = false :=
      uniqueOk_false_of_conflict hf hv he htab
        (fun i hi => Option.noConfusion hi) hev
    unfold insertEnt
    rw [if_pos hreq, if_neg (by simp [hfalse])]
  · intro x fields f v e0 e hfind hf hv he htab hne hev
    have hfalse : uniqueOk s db e0.table (some x) fields = false :=
      uniqueOk_false_of_conflict hf hv he htab
        (fun i hi => by injection hi with hii; rw [← hii]; exact hne) hev
    unfold patchEnt
    rw [hfind]
    simp [hfalse]
  · intro x fields f v e0 e hfind hreq hf hv he htab hne hev
    have hfalse : uniqueOk s db e0.table (some x) fields = false :=
      uniqueOk_false_of_conflict hf hv he htab
        (fun i hi => by injection hi with hii; rw [← hii]; exact hne) hev
    unfold replaceEnt
    rw [hfind]
    simp [hreq, hfalse]

/-- Witness for C5: the store `dbU` (one user with email 42), reached
from the empty store, satisfies the uniqueness invariant, and inserting,
patching or replacing a user with the already-taken email 42 fails with
a uniqueness violation. -/
theorem unique_field_enforcement_witness :
    UniqueInv sWrite dbU ∧
    insertEnt sWrite dbU "users" [("email", 42)] =
      .error .uniquenessViolation ∧
    patchEnt sWrite dbU2 1 [("email", 42)] = .error .uniquenessViolation ∧
    replaceEnt sWrite dbU2 1 [("email", 42)] = .error .uniquenessViolation := by
  have hreach : Reachable sWrite dbU :=
    @Reachable.insert sWrite DB.empty dbU "users" [("email", 42)]
      Reachable.empty rfl
  refine ⟨(unique_field_enforcement sWrite dbU).1 hreach, ?_, ?_, ?_⟩
  · exact (unique_field_enforcement sWrite dbU).2.1 "users" [("email", 42)]
      "email" 42
      { id := 0, table := "users", creationTime := 0, deletionTime := none,
        fields := [("email", 42)] }
      (by decide) rfl (by decide) rfl rfl (by decide)
  · exact (unique_field_enforcement sWrite dbU2).2.2.1 1 [("email", 42)]
      "email" 42
      { id := 1, table := "users", creationTime := 1, deletionTime := none,
        fields := [("email", 43)] }
      { id := 0, table := "users", creationTime := 0, deletionTime := none,
        fields := [("email", 42)] }
      rfl (by decide) rfl (by decide) rfl (by decide) rfl
  · exact (unique_field_enforcement sWrite dbU2).2.2.2 1 [("email", 42)]
      "email" 42
      { id := 1, table := "users", creationTime := 1, deletionTime := none,
        fields := [("email", 43)] }
      { id := 0, table := "users", creationTime := 0, deletionTime := none,
        fields := [("email", 42)] }
      rfl (by decide) (by decide) rfl (by decide) rfl (by decide) rfl

/-! ## Claim C6 -/

/-- Claim C6: no dangling references: after a successful insert, patch
or replace, every required field edge's foreign-key field being set
references an entity that exists in the target table; an insert, patch
or replace referencing a non-existent entity fails with a
dangling-reference error; and from a reachable store, after a
successful insert, `edge` traversal across every required field edge of
the inserted entity resolves to exactly one existing entity of the
target table. -/
theorem no_dangling_references (s : Schema) (db : DB) :
    (∀ table fields db', insertEnt s db table fields = .ok db' →
      ∀ fe ∈ s.fieldEdgesFrom table, ∃ v w,
        fields.lookup fe.field = some v ∧ w ∈ db'.entities ∧ w.id = v ∧
        w.table = fe.targetTable) ∧
    (∀ table fields fe v, fe ∈ s.fieldEdgesFrom table →
      fields.lookup fe.field = some v →
      (∀ w ∈ db.entities, ¬(w.id = v ∧ w.table = fe.targetTable)) →
      requiredFieldsOk s table fields = true →
      uniqueOk s db table none fields = true →
      insertEnt s db table fields = .error .danglingReference) ∧
    (∀ table fields db', Reachable s db →
      insertEnt s db table fields = .ok db' →
      ∃ eNew, findEntity db' db.nextId = some eNew ∧ eNew.table = table ∧
        eNew.fields = fields ∧
        ∀ fe ∈ s.fieldEdgesFrom table, ∃ target,
          edgeTraverse db' eNew fe = some target ∧
          target.table = fe.targetTable ∧
          db'.entities.countP (fun d => d.id == target.id) = 1) ∧
    (∀ x fields db' e0, patchEnt s db x fields = .ok db' →
      findEntity db x = some e0 →
      ∀ fe ∈ s.fieldEdgesFrom e0.table, ∀ v,
        fields.lookup fe.field = some v →
        ∃ w ∈ db'.entities, w.id = v ∧ w.table = fe.targetTable) ∧
    (∀ x fields fe v e0, findEntity db x = some e0 →
      fe ∈ s.fieldEdgesFrom e0.table → fields.lookup fe.field = some v →
      (∀ w ∈ db.entities, ¬(w.id = v ∧ w.table = fe.targetTable)) →
      uniqueOk s db e0.table (some x) fields = true →
      patchEnt s db x fields = .error .danglingReference) ∧
    (∀ x fields db' e0, replaceEnt s db x fields = .ok db' →
      findEntity db x = some e0 →
      ∀ fe ∈ s.fieldEdgesFrom e0.table, ∃ v w,
        fields.lookup fe.field = some v ∧ w ∈ db'.entities ∧ w.id = v ∧
        w.table = fe.targetTable) ∧
    (∀ x fields fe v e0, findEntity db x = some e0 →
      fe ∈ s.fieldEdgesFrom e0.table → fields.lookup fe.field = some v →
      (∀ w ∈ db.entities, ¬(w.id = v ∧ w.table = fe.targetTable)) →
      requiredFieldsOk s e0.table fields = true →
      uniqueOk s db e0.table (some x) fields = true →
      replaceEnt s db x fields = .error .danglingReference) := by
  refine ⟨?_, ?_, ?_, ?_, ?_, ?_, ?_⟩
  · intro table fields db' hok fe hfe
    obtain ⟨h1, h2, h3, rfl⟩ := insertEnt_ok_inv hok
    obtain ⟨v, hv⟩ := requiredOk_some h1 hfe
    obtain ⟨w, hw, hwid, hwtab⟩ := refsOk_resolves h3 hfe hv
    exact ⟨v, w, hv, List.mem_append_left _ hw, hwid, hwtab⟩
  · intro table fields fe v hfe hv hno hreq huniq
    have hfalse : refsOk s db table fields = false :=
      refsOk_false_of_dangling hfe hv hno
    unfold insertEnt
    rw [if_pos hreq, if_pos huniq, if_neg (by simp [hfalse])]
  · intro table fields db' hreach hok
    have hwf := reachable_WF hreach
    have hwf' := WF_insert hwf hok
    obtain ⟨hib, hnd, hui⟩ := hwf
    obtain ⟨h1, h2, h3, rfl⟩ := insertEnt_ok_inv hok
    have hfindnew : findEntity
        { db with
          entities := db.entities ++
            [{ id := db.nextId, table := table, creationTime := db.time,
               deletionTime := none, fields := fields }]
          nextId := db.nextId + 1
          time := db.time + 1 } db.nextId = some
        { id := db.nextId, table := table, creationTime := db.time,
          deletionTime := none, fields := fields } := by
      unfold findEntity
      have hnone : db.entities.find? (fun e => e.id == db.nextId) = none := by
        rw [List.find?_eq_none]
        intro e he
        simp only [beq_iff_eq]
        exact Nat.ne_of_lt (hib e he)
      show ((db.entities ++
          [({ id := db.nextId, table := table, creationTime := db.time,
              deletionTime := none, fields := fields } : Entity)]).find?
        (fun e => e.id == db.nextId)) =
        some { id := db.nextId, table := table, creationTime := db.time,
               deletionTime := none, fields := fields }
      rw [List.find?_append, hnone]
      simp
    refine ⟨_, hfindnew, rfl, rfl, ?_⟩
    intro fe hfe
    obtain ⟨v, hv⟩ := requiredOk_some h1 hfe
    obtain ⟨w, hw, hwid, hwtab⟩ := refsOk_resolves h3 hfe hv
    have hfw : findEntity
        { db with
          entities := db.entities ++
            [{ id := db.nextId, table := table, creationTime := db.time,
               deletionTime := none, fields := fields }]
          nextId := db.nextId + 1
          time := db.time + 1 } v = some w :=
      findEntity_of_mem hwf'.2.1 (List.mem_append_left _ hw) hwid
    refine ⟨w, ?_, hwtab, ?_⟩
    · show (List.lookup fe.field fields).bind _ = some w
      rw [hv]
      simpa using hfw
    · exact count_id_one hwf'.2.1 (List.mem_append_left _ hw)
  · intro x fields db' e0 hok hfind fe hfe v hv
    obtain ⟨e0', hf0, h2, h3, rfl⟩ := patchEnt_ok_inv hok
    have he0 : e0' = e0 := Option.some.inj (hf0.symm.trans hfind)
    subst he0
    obtain ⟨w, hw, hwid, hwtab⟩ := refsOk_resolves h3 hfe hv
    refine ⟨(fun d : Entity => if d.id == x then
      { d with fields := fields ++ d.fields } else d) w,
      List.mem_map.mpr ⟨w, hw, rfl⟩, ?_, ?_⟩
    · by_cases hwx : w.id = x
      · subst hwx
        simp [hwid]
      · have hvx : v ≠ x := fun h => hwx (hwid.trans h)
        simp [hwx, hvx, hwid]
    · by_cases hwx : w.id = x <;> simp [hwx, hwtab]
  · intro x fields fe v e0 hfind hfe hv hno huniq
    have hfalse : refsOk s db e0.table fields = false :=
      refsOk_false_of_dangling hfe hv hno
    unfold patchEnt
    rw [hfind]
    simp [huniq, hfalse]
  · intro x fields db' e0 hok hfind fe hfe
    obtain ⟨e0', hf0, h1, h2, h3, rfl⟩ := replaceEnt_ok_inv hok
    have he0 : e0' = e0 := Option.some.inj (hf0.symm.trans hfind)
    subst he0
    obtain ⟨v, hv⟩ := requiredOk_some h1 hfe
    obtain ⟨w, hw, hwid, hwtab⟩ := refsOk_resolves h3 hfe hv
    refine ⟨v, (fun d : Entity => if d.id == x then
      { d with fields := fields } else d) w, hv,
      List.mem_map.mpr ⟨w, hw, rfl⟩, ?_, ?_⟩
    · by_cases hwx : w.id = x
      · subst hwx
        simp [hwid]
      · have hvx : v ≠ x := fun h => hwx (hwid.trans h)
        simp [hwx, hvx, hwid]
    · by_cases hwx : w.id = x <;> simp [hwx, hwtab]
  · intro x fields fe v e0 hfind hfe hv hno hreq huniq
    have hfalse : refsOk s db e0.table fields = false :=
      refsOk_false_of_dangling hfe hv hno
    unfold replaceEnt
    rw [hfind]
    simp [hreq, huniq, hfalse]

/-- Witness for C6 on the concrete stores `dbU`/`dbProf`: inserting a
profile referencing user 0 succeeds and its `userId` edge resolves to
exactly one user; patching or replacing the profile with `userId := 0`
succeeds with the reference still resolving; and inserting, patching or
replacing with a reference to a non-existent id fails with a
dangling-reference error. -/
theorem no_dangling_references_witness :
    (∃ v w, ([("userId", 0)] : List (String × Nat)).lookup "userId" = some v ∧
      w ∈ dbProf.entities ∧ w.id = v ∧ w.table = "users") ∧
    insertEnt sWrite dbU "profiles" [("userId", 7)] =
      .error .danglingReference ∧
    (∃ eNew, findEntity dbProf dbU.nextId = some eNew ∧
      eNew.table = "profiles" ∧ eNew.fields = [("userId", 0)] ∧
      ∀ fe ∈ sWrite.fieldEdgesFrom "profiles", ∃ target,
        edgeTraverse dbProf eNew fe = some target ∧
        target.table = fe.targetTable ∧
        dbProf.entities.countP (fun d => d.id == target.id) = 1) ∧
    (∃ w ∈ dbProfPatched.entities, w.id = 0 ∧ w.table = "users") ∧
    patchEnt sWrite dbProf 1 [("userId", 9)] = .error .danglingReference ∧
    (∃ v w, ([("userId", 0)] : List (String × Nat)).lookup "userId" = some v ∧
      w ∈ dbProfT3.entities ∧ w.id = v ∧ w.table = "users") ∧
    replaceEnt sWrite dbProf 1 [("userId", 9)] =
      .error .danglingReference := by
  have hok : insertEnt sWrite dbU "profiles" [("userId", 0)] = .ok dbProf :=
    rfl
  have hokP : patchEnt sWrite dbProf 1 [("userId", 0)] = .ok dbProfPatched :=
    rfl
  have hokR : replaceEnt sWrite dbProf 1 [("userId", 0)] = .ok dbProfT3 :=
    rfl
  have hreach : Reachable sWrite dbU :=
    @Reachable.insert sWrite DB.empty dbU "users" [("email", 42)]
      Reachable.empty rfl
  refine ⟨?_, ?_, ?_, ?_, ?_, ?_, ?_⟩
  · exact (no_dangling_references sWrite dbU).1 "profiles" [("userId", 0)]
      dbProf hok
      { ownerTable := "profiles", targetTable := "users", field := "userId",
        softCascade := false } (by decide)
  · exact (no_dangling_references sWrite dbU).2.1 "profiles" [("userId", 7)]
      { ownerTable := "profiles", targetTable := "users", field := "userId",
        softCascade := false } 7 (by decide) rfl (by decide) (by decide)
      (by decide)
  · exact (no_dangling_references sWrite dbU).2.2.1 "profiles" [("userId", 0)]
      dbProf hreach hok
  · exact (no_dangling_references sWrite dbProf).2.2.2.1 1 [("userId", 0)]
      dbProfPatched
      { id := 1, table := "profiles", creationTime := 1,
        deletionTime := none, fields := [("userId", 0)] }
      hokP rfl
      { ownerTable := "profiles", targetTable := "users", field := "userId",
        softCascade := false } (by decide) 0 rfl
  · exact (no_dangling_references sWrite dbProf).2.2.2.2.1 1 [("userId", 9)]
      { ownerTable := "profiles", targetTable := "users", field := "userId",
        softCascade := false } 9
      { id := 1, table := "profiles", creationTime := 1,
        deletionTime := none, fields := [("userId", 0)] }
      rfl (by decide) rfl (by decide) (by decide)
  · exact (no_dangling_references sWrite dbProf).2.2.2.2.2.1 1 [("userId", 0)]
      dbProfT3
      { id := 1, table := "profiles", creationTime := 1,
        deletionTime := none, fields := [("userId", 0)] }
      hokR rfl
      { ownerTable := "profiles", targetTable := "users", field := "userId",
        softCascade := false } (by decide)
  · exact (no_dangling_references sWrite dbProf).2.2.2.2.2.2 1 [("userId", 9)]
      { ownerTable := "profiles", targetTable := "users", field := "userId",
        softCascade := false } 9
      { id := 1, table := "profiles", creationTime := 1,
        deletionTime := none, fields := [("userId", 0)] }
      rfl (by decide) rfl (by decide) (by decide) (by decide)

/-! ## Join-row order: claim C8 -/

theorem deleteEnt_rows_time (fuel : Nat) (s : Schema) (db : DB) (x : Nat) :
    List.Sublist (deleteEnt fuel s db x).joinRows db.joinRows ∧
    (deleteEnt fuel s db x).time = db.time := by
  unfold deleteEnt
  cases findEntity db x with
  | none => exact ⟨List.Sublist.refl _, rfl⟩
  | some e =>
    simp only
    cases s.policyOf e.table with
    | hard =>
      exact ⟨hardDel_joinRows_sublist fuel s db x,
        (hardDel_schedQ_time_nextId fuel s db x).2.1⟩
    | soft =>
      constructor
      · rw [(softDel_frame fuel s db x db.time).1]
      · exact (softDel_frame fuel s db x db.time).2.2.2
    | scheduled delayMs =>
      constructor
      · show List.Sublist (softDeleteEntity fuel s db x db.time).joinRows _
        rw [(softDel_frame fuel s db x db.time).1]
      · exact (softDel_frame fuel s db x db.time).2.2.2

theorem scheduledPass_rows_time (fuel : Nat) (s : Schema) (db : DB)
    (x : Nat) :
    List.Sublist (scheduledDeletePass fuel s db x).joinRows db.joinRows ∧
    (scheduledDeletePass fuel s db x).time = db.time := by
  unfold scheduledDeletePass
  cases findEntity db x with
  | none => exact ⟨List.Sublist.refl _, rfl⟩
  | some e =>
    simp only
    by_cases hd : e.deletionTime.isSome = true
    · rw [if_pos hd]
      exact ⟨hardDel_joinRows_sublist fuel s db x,
        (hardDel_schedQ_time_nextId fuel s db x).2.1⟩
    · rw [if_neg hd]
      exact ⟨List.Sublist.refl _, rfl⟩

/-- In every reachable store, the join rows sit in ascending creation
time order (they are only ever appended, stamped with the monotone
transaction clock) and their stamps are below the clock. -/
theorem reachable_rows_sorted {s : Schema} {db : DB} (h : Reachable s db) :
    List.Pairwise (fun r1 r2 : JoinRow => r1.creationTime ≤ r2.creationTime)
      db.joinRows ∧
    ∀ r ∈ db.joinRows, r.creationTime < db.time := by
  induction h with
  | empty =>
    exact ⟨List.Pairwise.nil, fun r hr => absurd hr (List.not_mem_nil r)⟩
  | insert _ hok ih =>
    obtain ⟨_, _, _, rfl⟩ := insertEnt_ok_inv hok
    exact ⟨ih.1, fun r hr => lt_trans (ih.2 r hr) (Nat.lt_succ_self _)⟩
  | patch _ hok ih =>
    obtain ⟨e0, _, _, _, rfl⟩ := patchEnt_ok_inv hok
    exact ⟨ih.1, fun r hr => lt_trans (ih.2 r hr) (Nat.lt_succ_self _)⟩
  | replace _ hok ih =>
    obtain ⟨e0, _, _, _, _, rfl⟩ := replaceEnt_ok_inv hok
    exact ⟨ih.1, fun r hr => lt_trans (ih.2 r hr) (Nat.lt_succ_self _)⟩
  | @connect db0 jt a b _ ih =>
    constructor
    · show List.Pairwise _ (db0.joinRows ++
        [({ id := db0.nextId, joinTable := jt, field1 := a, field2 := b,
            creationTime := db0.time } : JoinRow)])
      rw [List.pairwise_append]
      refine ⟨ih.1, List.pairwise_singleton _ _, ?_⟩
      intro r1 hr1 r2 hr2
      simp only [List.mem_singleton] at hr2
      subst hr2
      exact le_of_lt (ih.2 r1 hr1)
    · intro r hr
      simp only [addJoinRow, List.mem_append, List.mem_singleton] at hr
      show r.creationTime < db0.time + 1
      cases hr with
      | inl hold => exact lt_trans (ih.2 r hold) (Nat.lt_succ_self _)
      | inr hnew =>
        subst hnew
        exact Nat.lt_succ_self db0.time
  | @delete db0 fuel x _ ih =>
    obtain ⟨hsub, htime⟩ := deleteEnt_rows_time fuel s db0 x
    refine ⟨List.Pairwise.sublist hsub ih.1, ?_⟩
    intro r hr
    rw [htime]
    exact ih.2 r (hsub.subset hr)
  | @pass db0 fuel x _ ih =>
    obtain ⟨hsub, htime⟩ := scheduledPass_rows_time fuel s db0 x
    refine ⟨List.Pairwise.sublist hsub ih.1, ?_⟩
    intro r hr
    rw [htime]
    exact ih.2 r (hsub.subset hr)
  | @undelete db0 x _ ih =>
    exact ⟨ih.1, ih.2⟩

/-- Claim C8: for every many:many edge of a reachable store, the
traversal collection is produced from the join rows in ascending
join-row creation time (join-table insertion order), mapping each row to
its far entity — and not by the far entity's own creation time, as the
concrete store `dbC8` shows: its join rows are ordered by creation times
20, 21 while the far entities come out with creation times 10, 5. -/
theorem manyEdge_default_order (s : Schema) (db : DB) (jt : String)
    (x : Nat) :
    (Reachable s db →
      List.Pairwise (fun r1 r2 : JoinRow => r1.creationTime ≤ r2.creationTime)
        (manyEdgeRows db jt x) ∧
      manyEdgeCollection db jt x =
        (manyEdgeRows db jt x).filterMap (fun r => findEntity db r.field2)) ∧
    (manyEdgeRows dbC8 "tags_join" 1).map (·.creationTime) = [20, 21] ∧
    (manyEdgeCollection dbC8 "tags_join" 1).map (·.creationTime) = [10, 5] ∧
    ¬ List.Pairwise (fun a b : Nat => a ≤ b)
      ((manyEdgeCollection dbC8 "tags_join" 1).map (·.creationTime)) := by
  refine ⟨?_, by decide, by decide, by decide⟩
  intro hreach
  refine ⟨?_, rfl⟩
  exact List.Pairwise.sublist (List.filter_sublist _)
    (reachable_rows_sorted hreach).1

/-- Witness for C8: a reachable store with one join row satisfies the
ordering contract, and the concrete parts are evaluated on `dbC8`. -/
theorem manyEdge_default_order_witness :
    (List.Pairwise (fun r1 r2 : JoinRow => r1.creationTime ≤ r2.creationTime)
      (manyEdgeRows (addJoinRow dbU "likes" 0 0) "likes" 0) ∧
     manyEdgeCollection (addJoinRow dbU "likes" 0 0) "likes" 0 =
       (manyEdgeRows (addJoinRow dbU "likes" 0 0) "likes" 0).filterMap
         (fun r => findEntity (addJoinRow dbU "likes" 0 0) r.field2)) ∧
    (manyEdgeCollection dbC8 "tags_join" 1).map (·.creationTime) = [10, 5] :=
  ⟨(manyEdge_default_order sWrite (addJoinRow dbU "likes" 0 0) "likes" 0).1
      (Reachable.connect
        (@Reachable.insert sWrite DB.empty dbU "users" [("email", 42)]
          Reachable.empty rfl)),
   (manyEdge_default_order sWrite dbC8 "tags_join" 1).2.2.1⟩

/-! ## Hard deletion: equation and step lemmas -/

theorem hardDel_eq_none {fuel : Nat} {s : Schema} {db : DB} {x : Nat}
    (h : findEntity db x = none) :
    hardDeleteEntity (fuel + 1) s db x = db := by
  rw [hardDeleteEntity, h]

theorem hardDel_eq_some {fuel : Nat} {s : Schema} {db : DB} {x : Nat}
    {e : Entity} (h : findEntity db x = some e) :
    hardDeleteEntity (fuel + 1) s db x =
      removeEntity
        (removeJoinRowsRef
          ((directDepIds s db x).foldl
            (fun acc d => hardDeleteEntity fuel s acc d) db) x) x := by
  rw [hardDeleteEntity, h]

theorem softDel_eq_some {fuel : Nat} {s : Schema} {db : DB} {x t : Nat}
    {e : Entity} (h : findEntity db x = some e) :
    softDeleteEntity (fuel + 1) s db x t =
      (directSoftDepIds s db x).foldl
        (fun acc d => softDeleteEntity fuel s acc d t)
        (setDeletionTime db x t) := by
  rw [softDeleteEntity, h]

theorem hardStep_elim {s : Schema} {db : DB} {a b : Nat}
    (h : HardStep s db a b) :
    ∃ ea ∈ db.entities, ∃ eb ∈ db.entities, ea.id = a ∧ eb.id = b ∧
      findEntity db a = some ea ∧ isDepOf s eb ea = true := by
  unfold HardStep directDepIds at h
  cases hf : findEntity db a with
  | none => rw [hf] at h; simp at h
  | some ea =>
    rw [hf] at h
    simp only [List.mem_map] at h
    obtain ⟨d, hd, hdid⟩ := h
    refine ⟨ea, findEntity_some_mem hf, d, List.mem_of_mem_filter hd,
      findEntity_some_id hf, hdid, rfl, ?_⟩
    have := List.of_mem_filter hd
    simpa using this

theorem hardStep_intro {s : Schema} {db : DB} {ea eb : Entity}
    (hnd : NodupIds db) (ha : ea ∈ db.entities) (hb : eb ∈ db.entities)
    (hdep : isDepOf s eb ea = true) : HardStep s db ea.id eb.id := by
  unfold HardStep directDepIds
  rw [findEntity_of_mem hnd ha rfl]
  simp only [List.mem_map]
  exact ⟨eb, List.mem_filter_of_mem hb (by simpa using hdep), rfl⟩

theorem softStep_elim {s : Schema} {db : DB} {a b : Nat}
    (h : SoftStep s db a b) :
    ∃ ea ∈ db.entities, ∃ eb ∈ db.entities, ea.id = a ∧ eb.id = b ∧
      findEntity db a = some ea ∧ isSoftDepOf s eb ea = true := by
  unfold SoftStep directSoftDepIds at h
  cases hf : findEntity db a with
  | none => rw [hf] at h; simp at h
  | some ea =>
    rw [hf] at h
    simp only [List.mem_map] at h
    obtain ⟨d, hd, hdid⟩ := h
    refine ⟨ea, findEntity_some_mem hf, d, List.mem_of_mem_filter hd,
      findEntity_some_id hf, hdid, rfl, ?_⟩
    have := List.of_mem_filter hd
    simpa using this

theorem softStep_imp_hardStep {s : Schema} {db : DB} {a b : Nat}
    (hnd : NodupIds db) (h : SoftStep s db a b) : HardStep s db a b := by
  obtain ⟨ea, ha, eb, hb, hida, hidb, _, hdep⟩ := softStep_elim h
  have := hardStep_intro hnd ha hb (isSoftDep_isDep hdep)
  rwa [hida, hidb] at this

theorem ordDeps_subset {s : Schema} {db0 db : DB}
    (hsub : ∀ e ∈ db0.entities, e ∈ db.entities) (h : OrderedDeps s db) :
    OrderedDeps s db0 :=
  fun d hd t ht hdep => h d (hsub d hd) t (hsub t ht) hdep

theorem nodupIds_sublist {db0 db : DB}
    (hsub : List.Sublist db0.entities db.entities) (h : NodupIds db) :
    NodupIds db0 :=
  List.Nodup.sublist (hsub.map (·.id)) h

theorem hardStep_mono {s : Schema} {db0 db : DB}
    (hsub : List.Sublist db0.entities db.entities) (hnd : NodupIds db)
    {a b : Nat} (h : HardStep s db0 a b) : HardStep s db a b := by
  obtain ⟨ea, ha, eb, hb, hida, hidb, _, hdep⟩ := hardStep_elim h
  have := hardStep_intro hnd (hsub.subset ha) (hsub.subset hb) hdep
  rwa [hida, hidb] at this

theorem countP_lt_of_witness {α : Type} {p q : α → Bool} :
    ∀ {l : List α}, (∀ u ∈ l, p u = true → q u = true) → ∀ a ∈ l,
      q a = true → p a = false → l.countP p < l.countP q := by
  intro l
  induction l with
  | nil => intro _ a ha; exact absurd ha (List.not_mem_nil a)
  | cons b t ih =>
    intro himp a ha hq hp
    rw [List.countP_cons, List.countP_cons]
    rcases List.mem_cons.mp ha with hab | hat
    · rw [hab] at hq hp
      have e0 : (if p b = true then 1 else 0) = 0 := by simp [hp]
      have e1 : (if q b = true then 1 else 0) = 1 := by simp [hq]
      have hle : t.countP p ≤ t.countP q :=
        List.countP_mono_left (fun u hu => himp u (List.mem_cons_of_mem _ hu))
      rw [e0, e1]
      omega
    · have hlt : t.countP p < t.countP q :=
        ih (fun u hu => himp u (List.mem_cons_of_mem _ hu)) a hat hq hp
      have : (if p b = true then 1 else 0) ≤ (if q b = true then 1 else 0) := by
        by_cases hb : p b = true
        · rw [if_pos hb, if_pos (himp b (List.mem_cons_self b t) hb)]
        · rw [if_neg hb]
          omega
      omega

theorem countGT_filter_le {db0 db : DB}
    (hsub : List.Sublist db0.entities db.entities) (x : Nat) :
    countGT db0 x ≤ countGT db x :=
  List.Sublist.length_le (hsub.filter _)

theorem countGT_lt {db : DB} {x z : Nat}
    (hxz : x < z) {ez : Entity} (hez : ez ∈ db.entities) (hid : ez.id = z) :
    countGT db z < countGT db x := by
  unfold countGT
  rw [← List.countP_eq_length_filter, ← List.countP_eq_length_filter]
  refine countP_lt_of_witness ?_ ez hez ?_ ?_
  · intro u _ hu
    simp only [decide_eq_true_eq] at hu ⊢
    omega
  · simp only [decide_eq_true_eq]
    omega
  · simp only [decide_eq_false_iff_not, decide_eq_true_eq, hid]
    omega

/-- Every entity the recursive hard delete removes is the requested root
or one of its transitive dependents (measured in the starting store):
the engine never deletes an unrelated entity. -/
theorem hardDel_removed_reachable :
    ∀ (fuel : Nat) (s : Schema) (db : DB) (y : Nat), NodupIds db →
      ∀ e ∈ db.entities, e ∉ (hardDeleteEntity fuel s db y).entities →
      e.id = y ∨ TransDep s db y e.id := by
  intro fuel
  induction fuel with
  | zero =>
    intro s db y _ e he hne
    exact absurd he hne
  | succ fuel ih =>
    intro s db y hnd e he hne
    cases hfind : findEntity db y with
    | none =>
      rw [hardDel_eq_none hfind] at hne
      exact absurd he hne
    | some e0 =>
      rw [hardDel_eq_some hfind] at hne
      by_cases hey : e.id = y
      · exact Or.inl hey
      · right
        have hne1 : e ∉ ((directDepIds s db y).foldl
            (fun acc d => hardDeleteEntity fuel s acc d) db).entities := by
          intro hmem
          apply hne
          show e ∈ (((directDepIds s db y).foldl
            (fun acc d => hardDeleteEntity fuel s acc d) db).entities.filter
              (fun d => d.id != y))
          exact List.mem_filter_of_mem hmem (by simp [hey])
        have hfold : ∀ (ds : List Nat) (db0 : DB),
            List.Sublist db0.entities db.entities →
            (∀ z ∈ ds, TransDep s db y z) →
            ∀ e' ∈ db0.entities,
              e' ∉ (ds.foldl (fun acc z => hardDeleteEntity fuel s acc z)
                db0).entities →
              TransDep s db y e'.id := by
          intro ds
          induction ds with
          | nil => intro db0 _ _ e' he' hne'; exact absurd he' hne'
          | cons z ds ihds =>
            intro db0 hsub hds e' he' hne'
            by_cases hmid : e' ∈ (hardDeleteEntity fuel s db0 z).entities
            · exact ihds (hardDeleteEntity fuel s db0 z)
                ((hardDel_entities_sublist fuel s db0 z).trans hsub)
                (fun w hw => hds w (List.mem_cons_of_mem _ hw)) e' hmid hne'
            · have hnd0 : NodupIds db0 := nodupIds_sublist hsub hnd
              cases ih s db0 z hnd0 e' he' hmid with
              | inl heq =>
                rw [heq]
                exact hds z (List.mem_cons_self z ds)
              | inr htd =>
                have hlift : TransDep s db z e'.id :=
                  Relation.TransGen.mono
                    (fun a b hab => hardStep_mono hsub hnd hab) htd
                exact Relation.TransGen.trans
                  (hds z (List.mem_cons_self z ds)) hlift
        exact hfold (directDepIds s db y) db (List.Sublist.refl _)
          (fun z hz => Relation.TransGen.single hz) e he hne1

/-- Lowering a dependency chain into a smaller store: if no present
entity depends on a vanished one, a chain in the big store ending at a
present entity lies entirely in the smaller store. -/
theorem transDep_lower {s : Schema} {db db0 : DB}
    (hsub : ∀ e ∈ db0.entities, e ∈ db.entities)
    (hnd : NodupIds db) (hnd0 : NodupIds db0)
    (hvan : ∀ w ∈ db0.entities, ∀ z ∈ db.entities, isDepOf s w z = true →
      z ∈ db0.entities) :
    ∀ {a d : Nat}, TransDep s db a d → ∀ ed ∈ db0.entities, ed.id = d →
      TransDep s db0 a d := by
  intro a d h
  induction h with
  | single hstep =>
    intro ed hed hedid
    obtain ⟨ea, ha, eb, hb, hida, hidb, _, hdep⟩ := hardStep_elim hstep
    have hedb : ed = eb := mem_id_inj hnd (hsub ed hed) hb (by rw [hedid, hidb])
    have hea0 : ea ∈ db0.entities := hvan ed hed ea ha (by rw [hedb]; exact hdep)
    have hstep0 := hardStep_intro hnd0 hea0 hed (by rw [hedb]; exact hdep)
    rw [hida, hedid] at hstep0
    exact Relation.TransGen.single hstep0
  | tail hab hstep ihab =>
    intro ed hed hedid
    obtain ⟨eb, hbmem, ec, hcmem, hidb, hidc, _, hdep⟩ := hardStep_elim hstep
    have hedc : ed = ec :=
      mem_id_inj hnd (hsub ed hed) hcmem (by rw [hedid, hidc])
    have heb0 : eb ∈ db0.entities :=
      hvan ed hed eb hbmem (by rw [hedc]; exact hdep)
    have htd0 := ihab eb heb0 hidb
    have hstep0 := hardStep_intro hnd0 heb0 hed (by rw [hedc]; exact hdep)
    rw [hidb, hedid] at hstep0
    exact Relation.TransGen.tail htd0 hstep0

/-- Main completeness lemma for the recursive depth-first hard delete:
when references point backwards (`OrderedDeps`) and the fuel exceeds the
number of entities above the root, no surviving entity is the root or
any of its transitive dependents. -/
theorem hardDel_closure_removed :
    ∀ (fuel : Nat) (s : Schema) (db : DB) (x : Nat),
      OrderedDeps s db → NodupIds db → countGT db x < fuel →
      ∀ d ∈ (hardDeleteEntity fuel s db x).entities,
        ¬(d.id = x ∨ TransDep s db x d.id) := by
  intro fuel
  induction fuel with
  | zero =>
    intro s db x _ _ hcount
    exact absurd hcount (Nat.not_lt_zero _)
  | succ fuel ih =>
    intro s db x hord hnd hcount
    cases hfind : findEntity db x with
    | none =>
      rw [hardDel_eq_none hfind]
      intro d hd hbad
      cases hbad with
      | inl heq => exact findEntity_none_iff.mp hfind d hd heq
      | inr htd =>
        obtain ⟨y, hstep, _⟩ := (Relation.TransGen.head'_iff).mp htd
        obtain ⟨ea, ha, _, _, hida, _, _, _⟩ := hardStep_elim hstep
        exact findEntity_none_iff.mp hfind ea ha hida
    | some e0 =>
      rw [hardDel_eq_some hfind]
      intro d hd hbad
      simp only [removeEntity, removeJoinRowsRef] at hd
      have h1 := List.mem_filter.mp hd
      have hdmem : d ∈ ((directDepIds s db x).foldl
          (fun acc z => hardDeleteEntity fuel s acc z) db).entities := h1.1
      have hdne : d.id ≠ x := by simpa using h1.2
      cases hbad with
      | inl heq => exact hdne heq
      | inr htd =>
        obtain ⟨y, hstep, hrest⟩ := (Relation.TransGen.head'_iff).mp htd
        have hfold : ∀ (ds : List Nat) (db0 : DB),
            List.Sublist db0.entities db.entities →
            (∀ z ∈ ds, HardStep s db x z) →
            (∀ w ∈ db0.entities, ∀ z ∈ db.entities, isDepOf s w z = true →
              z ∈ db0.entities) →
            ∀ d' ∈ (ds.foldl (fun acc z => hardDeleteEntity fuel s acc z)
              db0).entities, ∀ z ∈ ds,
              ¬(d'.id = z ∨ TransDep s db z d'.id) := by
          intro ds
          induction ds with
          | nil =>
            intro db0 _ _ _ d' _ z hz
            exact absurd hz (List.not_mem_nil z)
          | cons z0 ds ihds =>
            intro db0 hsub hds hvan d' hd'mem z hz
            rw [List.foldl_cons] at hd'mem
            have hnd0 : NodupIds db0 := nodupIds_sublist hsub hnd
            have hord0 : OrderedDeps s db0 := ordDeps_subset hsub.subset hord
            have hstep0 : HardStep s db x z0 := hds z0 (List.mem_cons_self z0 ds)
            have hxz : x < z0 := hardStep_lt hord hstep0
            obtain ⟨_, _, ez0, hez0, _, hidz0, _, _⟩ := hardStep_elim hstep0
            have hmeasure : countGT db0 z0 < fuel := by
              have hle : countGT db0 z0 ≤ countGT db z0 :=
                countGT_filter_le hsub z0
              have hlt : countGT db z0 < countGT db x :=
                countGT_lt hxz hez0 hidz0
              omega
            have hML := ih s db0 z0 hord0 hnd0 hmeasure
            have hsubn : List.Sublist
                (hardDeleteEntity fuel s db0 z0).entities db0.entities :=
              hardDel_entities_sublist fuel s db0 z0
            have hvan' : ∀ w ∈ (hardDeleteEntity fuel s db0 z0).entities,
                ∀ z' ∈ db.entities, isDepOf s w z' = true →
                z' ∈ (hardDeleteEntity fuel s db0 z0).entities := by
              intro w hw z' hz' hdep
              have hw0 : w ∈ db0.entities := hsubn.subset hw
              have hz'0 : z' ∈ db0.entities := hvan w hw0 z' hz' hdep
              by_cases hz'n : z' ∈ (hardDeleteEntity fuel s db0 z0).entities
              · exact hz'n
              · exfalso
                have hstepw := hardStep_intro hnd0 hz'0 hw0 hdep
                cases hardDel_removed_reachable fuel s db0 z0 hnd0 z' hz'0
                    hz'n with
                | inl heq =>
                  rw [heq] at hstepw
                  exact hML w hw (Or.inr (Relation.TransGen.single hstepw))
                | inr htd' =>
                  exact hML w hw
                    (Or.inr (Relation.TransGen.tail htd' hstepw))
            rcases List.mem_cons.mp hz with hzz0 | hzds
            · subst hzz0
              have hd'sub : d' ∈ (hardDeleteEntity fuel s db0 z).entities :=
                (foldl_entities_sublist
                  (fun dbi zi => hardDel_entities_sublist fuel s dbi zi) ds
                  _).subset hd'mem
              intro hbad'
              cases hbad' with
              | inl heq' => exact hML d' hd'sub (Or.inl heq')
              | inr htd' =>
                have hlow : TransDep s db0 z d'.id :=
                  transDep_lower hsub.subset hnd hnd0 hvan htd' d'
                    (hsubn.subset hd'sub) rfl
                exact hML d' hd'sub (Or.inr hlow)
            · exact ihds (hardDeleteEntity fuel s db0 z0)
                (hsubn.trans hsub)
                (fun w hw => hds w (List.mem_cons_of_mem _ hw)) hvan'
                d' hd'mem z hzds
        have hcon := hfold (directDepIds s db x) db (List.Sublist.refl _)
          (fun z hz => hz) (fun w _ z hz _ => hz) d hdmem y hstep
        rcases (Relation.reflTransGen_iff_eq_or_transGen.mp hrest) with
          heq | htg
        · exact hcon (Or.inl heq)
        · exact hcon (Or.inr htg)

/-! ## Claim C1: hard deletion cascade -/

theorem foldl_audit_extends {g : DB → Nat → DB}
    (h : ∀ db d, ∃ t, (g db d).audit = db.audit ++ t) :
    ∀ (ds : List Nat) (db0 : DB),
      ∃ t, (ds.foldl g db0).audit = db0.audit ++ t := by
  intro ds
  induction ds with
  | nil => intro db0; exact ⟨[], (List.append_nil _).symm⟩
  | cons d ds ih =>
    intro db0
    obtain ⟨t1, ht1⟩ := h db0 d
    obtain ⟨t2, ht2⟩ := ih (g db0 d)
    exact ⟨t1 ++ t2, by rw [List.foldl_cons, ht2, ht1, List.append_assoc]⟩

theorem hardDel_audit_extends :
    ∀ (fuel : Nat) (s : Schema) (db : DB) (x : Nat),
      ∃ t, (hardDeleteEntity fuel s db x).audit = db.audit ++ t := by
  intro fuel
  induction fuel with
  | zero => intro s db x; exact ⟨[], (List.append_nil _).symm⟩
  | succ fuel ih =>
    intro s db x
    cases hfind : findEntity db x with
    | none =>
      rw [hardDel_eq_none hfind]
      exact ⟨[], (List.append_nil _).symm⟩
    | some e =>
      rw [hardDel_eq_some hfind]
      obtain ⟨t1, ht1⟩ := foldl_audit_extends
        (fun dbi zi => ih s dbi zi) (directDepIds s db x) db
      refine ⟨t1 ++
        ((((directDepIds s db x).foldl
          (fun acc d => hardDeleteEntity fuel s acc d) db).joinRows.filter
            (fun r => rowRefs r x)).map (fun r => .removedJoinRow r.id)) ++
        [.removedEntity x], ?_⟩
      simp only [removeEntity, removeJoinRowsRef]
      rw [ht1]
      simp [List.append_assoc]

theorem deleteEnt_hard_eq {fuel : Nat} {s : Schema} {db : DB} {x : Nat}
    {e : Entity} (hfind : findEntity db x = some e)
    (hpol : s.policyOf e.table = .hard) :
    deleteEnt fuel s db x = hardDeleteEntity fuel s db x := by
  unfold deleteEnt
  rw [hfind]
  simp [hpol]

/-- Claim C1: for a table whose deletion policy is `hard`, `delete(x)`
removes, within one transaction: recursively every transitive dependent
of `x` across required field edges, every many:many join row referencing
`x` (both direction rows of a self edge reference `x` and are covered),
and `x` itself last (the final write of the audit trail, preceded by the
join-row removals); entities not dependent on `x` — in particular the
far entities across its many:many join rows — survive untouched.
`OrderedDeps` (references point backwards, making the dependency graph
well-founded) licenses the fuel bound on the spec's unbounded
recursion. -/
theorem hard_delete_cascade (fuel : Nat) (s : Schema) (db : DB) (x : Nat)
    (e : Entity) (hfind : findEntity db x = some e)
    (hpol : s.policyOf e.table = .hard) (hord : OrderedDeps s db)
    (hnd : NodupIds db) (hfuel : db.entities.length + 1 ≤ fuel) :
    (∀ d ∈ (deleteEnt fuel s db x).entities, d.id ≠ x) ∧
    (∀ d ∈ (deleteEnt fuel s db x).entities, ¬ TransDep s db x d.id) ∧
    (∀ r ∈ (deleteEnt fuel s db x).joinRows, rowRefs r x = false) ∧
    (∀ d ∈ db.entities, d.id ≠ x → ¬ TransDep s db x d.id →
      d ∈ (deleteEnt fuel s db x).entities) ∧
    (∃ ops1 ops2, (deleteEnt fuel s db x).audit =
      db.audit ++ ops1 ++ ops2 ++ [.removedEntity x] ∧
      ∀ o ∈ ops2, ∃ rid, o = .removedJoinRow rid) := by
  have hcount : countGT db x < fuel := by
    have : countGT db x ≤ db.entities.length := List.length_filter_le _ _
    omega
  rw [deleteEnt_hard_eq hfind hpol]
  obtain ⟨f, rfl⟩ : ∃ f, fuel = f + 1 := ⟨fuel - 1, by omega⟩
  refine ⟨hardDel_root_removed s db x (by omega), ?_, ?_, ?_, ?_⟩
  · intro d hd htd
    exact hardDel_closure_removed (f + 1) s db x hord hnd hcount d hd
      (Or.inr htd)
  · rw [hardDel_eq_some hfind]
    intro r hr
    simp only [removeEntity, removeJoinRowsRef] at hr
    have := List.of_mem_filter hr
    simpa using this
  · intro d hd hne htd
    by_cases hmem : d ∈ (hardDeleteEntity (f + 1) s db x).entities
    · exact hmem
    · cases hardDel_removed_reachable (f + 1) s db x hnd d hd hmem with
      | inl heq => exact absurd heq hne
      | inr h => exact absurd h htd
  · rw [hardDel_eq_some hfind]
    obtain ⟨t1, ht1⟩ := foldl_audit_extends
      (fun dbi zi => hardDel_audit_extends f s dbi zi) (directDepIds s db x)
      db
    refine ⟨t1,
      ((((directDepIds s db x).foldl
        (fun acc d => hardDeleteEntity f s acc d) db).joinRows.filter
          (fun r => rowRefs r x)).map (fun r => .removedJoinRow r.id)),
      ?_, ?_⟩
    · simp only [removeEntity, removeJoinRowsRef]
      rw [ht1]
    · intro o ho
      obtain ⟨r, _, rfl⟩ := List.mem_map.mp ho
      exact ⟨r.id, rfl⟩

/-- Witness for C1 on `dbCasc`: hard-deleting user 0 removes the user,
its dependent profile and the join row, and the audit trail ends with
the user's own removal. -/
theorem hard_delete_cascade_witness :
    (∀ d ∈ (deleteEnt 5 sWrite dbCasc 0).entities, d.id ≠ 0) ∧
    (∀ d ∈ (deleteEnt 5 sWrite dbCasc 0).entities,
      ¬ TransDep sWrite dbCasc 0 d.id) ∧
    (∀ r ∈ (deleteEnt 5 sWrite dbCasc 0).joinRows, rowRefs r 0 = false) ∧
    (∀ d ∈ dbCasc.entities, d.id ≠ 0 → ¬ TransDep sWrite dbCasc 0 d.id →
      d ∈ (deleteEnt 5 sWrite dbCasc 0).entities) ∧
    (∃ ops1 ops2, (deleteEnt 5 sWrite dbCasc 0).audit =
      dbCasc.audit ++ ops1 ++ ops2 ++ [.removedEntity 0] ∧
      ∀ o ∈ ops2, ∃ rid, o = .removedJoinRow rid) :=
  hard_delete_cascade 5 sWrite dbCasc 0
    { id := 0, table := "users", creationTime := 0, deletionTime := none,
      fields := [("email", 42)] }
    rfl rfl (by unfold OrderedDeps; decide) (by unfold NodupIds; decide)
    (by decide)

/-! ## Soft deletion: marking lemmas -/

theorem skel_ids_eq {db0 db : DB} (h : SameSkel db0 db) :
    db0.entities.map (·.id) = db.entities.map (·.id) := by
  rw [← ids_map_strip db0.entities, ← ids_map_strip db.entities, h]

theorem findEntity_isSome_of_id_mem {db : DB} {d : Nat}
    (h : d ∈ db.entities.map (·.id)) : ∃ e, findEntity db d = some e := by
  obtain ⟨e, he, hid⟩ := List.mem_map.mp h
  cases hf : findEntity db d with
  | none => exact absurd hid (findEntity_none_iff.mp hf e he)
  | some e' => exact ⟨e', rfl⟩

theorem skel_find_isSome {db0 db : DB} (hskel : SameSkel db0 db) {y : Nat}
    {e : Entity} (hfind : findEntity db y = some e) :
    ∃ e', findEntity db0 y = some e' := by
  refine findEntity_isSome_of_id_mem ?_
  rw [skel_ids_eq hskel]
  exact List.mem_map.mpr ⟨e, findEntity_some_mem hfind, findEntity_some_id hfind⟩

theorem nodupIds_skel {db0 db : DB} (h : SameSkel db0 db)
    (hnd : NodupIds db) : NodupIds db0 := by
  unfold NodupIds
  rw [skel_ids_eq h]
  exact hnd

theorem ordDeps_skel {s : Schema} {db0 db : DB} (h : SameSkel db0 db)
    (hord : OrderedDeps s db) : OrderedDeps s db0 := by
  intro d hd t ht hdep
  have hds : stripDT d ∈ db.entities.map stripDT := by
    rw [← h]
    exact List.mem_map_of_mem _ hd
  have hts : stripDT t ∈ db.entities.map stripDT := by
    rw [← h]
    exact List.mem_map_of_mem _ ht
  obtain ⟨d', hd', hdeq⟩ := List.mem_map.mp hds
  obtain ⟨t', ht', hteq⟩ := List.mem_map.mp hts
  have hdep' : isDepOf s d' t' = true := by
    rw [isDepOf_strip_congr hdeq hteq]
    exact hdep
  have := hord d' hd' t' ht' hdep'
  rw [(stripDT_parts hdeq).1, (stripDT_parts hteq).1] at this
  exact this

theorem countGT_skel {db0 db : DB} (h : SameSkel db0 db) (x : Nat) :
    countGT db0 x = countGT db x := by
  unfold countGT
  rw [← List.countP_eq_length_filter, ← List.countP_eq_length_filter]
  have key : ∀ l : List Entity,
      l.countP (fun e => decide (x < e.id)) =
        (l.map stripDT).countP (fun e => decide (x < e.id)) := by
    intro l
    rw [List.countP_map]
    rfl
  rw [key db0.entities, key db.entities, h]

theorem softDel_marked_persists :
    ∀ (fuel : Nat) (s : Schema) (db : DB) (y t d : Nat),
      (∃ e ∈ db.entities, e.id = d ∧ e.deletionTime = some t) →
      ∃ e ∈ (softDeleteEntity fuel s db y t).entities, e.id = d ∧
        e.deletionTime = some t := by
  intro fuel
  induction fuel with
  | zero => intro s db y t d h; exact h
  | succ fuel ih =>
    intro s db y t d h
    cases hfind : findEntity db y with
    | none => rw [softDeleteEntity, hfind]; exact h
    | some e0 =>
      rw [softDel_eq_some hfind]
      have hmark : ∃ e ∈ (setDeletionTime db y t).entities, e.id = d ∧
          e.deletionTime = some t := by
        obtain ⟨e, he, hid, hdt⟩ := h
        by_cases hey : e.id = y
        · refine ⟨{ e with deletionTime := some t }, ?_, hid, rfl⟩
          unfold setDeletionTime
          exact List.mem_map.mpr ⟨e, he, by simp [hey]⟩
        · refine ⟨e, ?_, hid, hdt⟩
          unfold setDeletionTime
          exact List.mem_map.mpr ⟨e, he, by simp [hey]⟩
      have hfold : ∀ (ds : List Nat) (db0 : DB),
          (∃ e ∈ db0.entities, e.id = d ∧ e.deletionTime = some t) →
          ∃ e ∈ (ds.foldl (fun acc z => softDeleteEntity fuel s acc z t)
            db0).entities, e.id = d ∧ e.deletionTime = some t := by
        intro ds
        induction ds with
        | nil => intro db0 h0; exact h0
        | cons z ds ihds =>
          intro db0 h0
          rw [List.foldl_cons]
          exact ihds _ (ih s db0 z t d h0)
      exact hfold (directSoftDepIds s db y) (setDeletionTime db y t) hmark

theorem softDel_fold_marked_persists (fuel : Nat) (s : Schema) (t d : Nat) :
    ∀ (ds : List Nat) (db0 : DB),
      (∃ e ∈ db0.entities, e.id = d ∧ e.deletionTime = some t) →
      ∃ e ∈ (ds.foldl (fun acc z => softDeleteEntity fuel s acc z t)
        db0).entities, e.id = d ∧ e.deletionTime = some t := by
  intro ds
  induction ds with
  | nil => intro db0 h0; exact h0
  | cons z ds ihds =>
    intro db0 h0
    rw [List.foldl_cons]
    exact ihds _ (softDel_marked_persists fuel s db0 z t d h0)

theorem softDel_marks_root {fuel : Nat} {s : Schema} {db : DB} {y t : Nat}
    {e : Entity} (hfuel : 1 ≤ fuel) (hfind : findEntity db y = some e) :
    ∃ e' ∈ (softDeleteEntity fuel s db y t).entities, e'.id = y ∧
      e'.deletionTime = some t := by
  obtain ⟨f, rfl⟩ : ∃ f, fuel = f + 1 := ⟨fuel - 1, by omega⟩
  rw [softDel_eq_some hfind]
  have hmark : ∃ e' ∈ (setDeletionTime db y t).entities, e'.id = y ∧
      e'.deletionTime = some t := by
    refine ⟨{ e with deletionTime := some t }, ?_, ?_, rfl⟩
    · unfold setDeletionTime
      exact List.mem_map.mpr ⟨e, findEntity_some_mem hfind,
        by simp [findEntity_some_id hfind]⟩
    · simpa using findEntity_some_id hfind
  exact softDel_fold_marked_persists f s t y (directSoftDepIds s db y)
    (setDeletionTime db y t) hmark

/-! ## Soft-cascade chains -/

theorem transGen_path {r : Nat → Nat → Prop} {x d : Nat}
    (h : Relation.TransGen r x d) :
    ∃ l : List Nat, List.Chain r x (l ++ [d]) := by
  induction h with
  | single h1 => exact ⟨[], List.Chain.cons h1 List.Chain.nil⟩
  | @tail b c hxb hbc ihb =>
    obtain ⟨l, hl⟩ := ihb
    refine ⟨l ++ [b], ?_⟩
    rw [List.append_assoc]
    show List.Chain r x (l ++ (b :: [c]))
    rw [List.chain_split]
    exact ⟨hl, List.Chain.cons hbc List.Chain.nil⟩

theorem chain_targets {r : Nat → Nat → Prop} :
    ∀ (m : List Nat) (x : Nat), List.Chain r x m → ∀ z ∈ m, ∃ a, r a z := by
  intro m
  induction m with
  | nil => intro x _ z hz; exact absurd hz (List.not_mem_nil z)
  | cons b m ih =>
    intro x hchain z hz
    cases hchain with
    | cons h1 htail =>
      rcases List.mem_cons.mp hz with hzb | hzm
      · exact ⟨x, hzb ▸ h1⟩
      · exact ih b htail z hzm

/-- A soft-cascade chain has ids strictly increasing along it, so its
length is bounded by the number of entities above its start. -/
theorem softChain_length_le {s : Schema} {db : DB} {x d : Nat}
    (hord : OrderedDeps s db) {l : List Nat}
    (hchain : List.Chain (SoftStep s db) x (l ++ [d])) :
    (l ++ [d]).length ≤ countGT db x := by
  have hlt : List.Chain (fun a b : Nat => a < b) x (l ++ [d]) :=
    List.Chain.imp (fun a b hab => softStep_lt hord hab) hchain
  have hpw : List.Pairwise (fun a b : Nat => a < b) (x :: (l ++ [d])) :=
    List.chain_iff_pairwise.mp hlt
  have hgt : ∀ z ∈ l ++ [d], x < z := (List.pairwise_cons.mp hpw).1
  have hnodup : (l ++ [d]).Nodup :=
    List.Pairwise.imp (fun hab => Nat.ne_of_lt hab)
      (List.pairwise_cons.mp hpw).2
  have hmem : ∀ z ∈ l ++ [d],
      z ∈ (db.entities.filter (fun e => decide (x < e.id))).map (·.id) := by
    intro z hz
    obtain ⟨a, ha⟩ := chain_targets _ x hchain z hz
    obtain ⟨_, _, eb, hb, _, hidb, _, _⟩ := softStep_elim ha
    refine List.mem_map.mpr ⟨eb, List.mem_filter_of_mem hb ?_, hidb⟩
    simp only [decide_eq_true_eq, hidb]
    exact hgt z hz
  have hsub := List.Nodup.subperm hnodup hmem
  have := List.Subperm.length_le hsub
  rwa [List.length_map] at this

/-- Completeness of the recursive soft cascade along one dependency
chain: with fuel exceeding the chain length, the chain's endpoint ends
up soft-deleted, in any store with the same skeleton as the one the
chain lives in. -/
theorem softDel_chain_marked {s : Schema} {db : DB} {t d : Nat} :
    ∀ (m : List Nat) (fuel : Nat) (db0 : DB) (y : Nat),
      SameSkel db0 db → List.Chain (SoftStep s db) y (m ++ [d]) →
      m.length + 2 ≤ fuel →
      ∃ e ∈ (softDeleteEntity fuel s db0 y t).entities, e.id = d ∧
        e.deletionTime = some t := by
  intro m
  induction m with
  | nil =>
    intro fuel db0 y hskel hchain hfuel
    rw [List.nil_append] at hchain
    have hstep : SoftStep s db y d := by
      cases hchain with
      | cons h1 _ => exact h1
    obtain ⟨f, rfl⟩ : ∃ f, fuel = f + 1 := ⟨fuel - 1, by omega⟩
    obtain ⟨ey, hey, ed, hedm, hidy, hidd, hfindy, _⟩ := softStep_elim hstep
    obtain ⟨ey', hfindy0⟩ := skel_find_isSome hskel hfindy
    rw [softDel_eq_some hfindy0]
    have hdeps : directSoftDepIds s db0 y = directSoftDepIds s db y :=
      directSoftDepIds_skel hskel y
    have hfold : ∀ (ds : List Nat) (dbi : DB), SameSkel dbi db → d ∈ ds →
        ∃ e ∈ (ds.foldl (fun acc z => softDeleteEntity f s acc z t)
          dbi).entities, e.id = d ∧ e.deletionTime = some t := by
      intro ds
      induction ds with
      | nil => intro dbi _ hd0; exact absurd hd0 (List.not_mem_nil d)
      | cons z ds ihds =>
        intro dbi hskeli hd0
        rw [List.foldl_cons]
        rcases List.mem_cons.mp hd0 with hdz | hdds
        · subst hdz
          obtain ⟨ed', hfindd⟩ := skel_find_isSome hskeli
            (findEntity_isSome_of_id_mem
              (List.mem_map.mpr ⟨ed, hedm, hidd⟩)).choose_spec
          have hmarked := @softDel_marks_root f s dbi d t ed'
            (by omega : 1 ≤ f) hfindd
          exact softDel_fold_marked_persists f s t d ds _ hmarked
        · exact ihds _ ((softDel_skel f s dbi z t).trans hskeli) hdds
    exact hfold (directSoftDepIds s db0 y) (setDeletionTime db0 y t)
      ((setDeletionTime_skel db0 y t).trans hskel) (by rw [hdeps]; exact hstep)
  | cons b m ihm =>
    intro fuel db0 y hskel hchain hfuel
    have hchain' : SoftStep s db y b ∧
        List.Chain (SoftStep s db) b (m ++ [d]) := by
      cases hchain with
      | cons h1 htail => exact ⟨h1, htail⟩
    obtain ⟨f, rfl⟩ : ∃ f, fuel = f + 1 := ⟨fuel - 1, by omega⟩
    obtain ⟨ey, hey, eb, hebm, hidy, hidb, hfindy, _⟩ :=
      softStep_elim hchain'.1
    obtain ⟨ey', hfindy0⟩ := skel_find_isSome hskel hfindy
    rw [softDel_eq_some hfindy0]
    have hdeps : directSoftDepIds s db0 y = directSoftDepIds s db y :=
      directSoftDepIds_skel hskel y
    have hfold : ∀ (ds : List Nat) (dbi : DB), SameSkel dbi db → b ∈ ds →
        ∃ e ∈ (ds.foldl (fun acc z => softDeleteEntity f s acc z t)
          dbi).entities, e.id = d ∧ e.deletionTime = some t := by
      intro ds
      induction ds with
      | nil => intro dbi _ hb0; exact absurd hb0 (List.not_mem_nil b)
      | cons z ds ihds =>
        intro dbi hskeli hb0
        rw [List.foldl_cons]
        rcases List.mem_cons.mp hb0 with hbz | hbds
        · subst hbz
          have hmarked := ihm f dbi b hskeli hchain'.2
            (by simp only [List.length_cons] at hfuel; omega)
          exact softDel_fold_marked_persists f s t d ds _ hmarked
        · exact ihds _ ((softDel_skel f s dbi z t).trans hskeli) hbds
    exact hfold (directSoftDepIds s db0 y) (setDeletionTime db0 y t)
      ((setDeletionTime_skel db0 y t).trans hskel)
      (by rw [hdeps]; exact hchain'.1)

/-! ## Claim C2: scheduled deletion -/

theorem transSoftDep_imp {s : Schema} {db : DB} (hnd : NodupIds db)
    {x d : Nat} (h : TransSoftDep s db x d) : TransDep s db x d :=
  Relation.TransGen.mono (fun _ _ hab => softStep_imp_hardStep hnd hab) h

theorem deleteEnt_sched_eq {fuel : Nat} {s : Schema} {db : DB}
    {x delayMs : Nat} {e : Entity} (hfind : findEntity db x = some e)
    (hpol : s.policyOf e.table = .scheduled delayMs) :
    deleteEnt fuel s db x =
      { softDeleteEntity fuel s db x db.time with
        schedQ := (softDeleteEntity fuel s db x db.time).schedQ ++
          [(x, delayMs)]
        audit := (softDeleteEntity fuel s db x db.time).audit ++
          [.enqueuedPass x delayMs] } := by
  unfold deleteEnt
  rw [hfind]
  simp [hpol]

/-- Claim C2: for a table whose deletion policy is `scheduled(delayMs)`,
`delete(x)` soft-deletes the entity and all its transitive soft-cascade
dependents in the current transaction, and enqueues exactly one future
hard-deletion pass — for `x` itself with delay `delayMs`; the cascaded
dependents are not separately enqueued, and when the ancestor's pass
runs it hard-deletes them with no additional delay (the pass enqueues
nothing further). -/
theorem scheduled_delete_behavior (fuel : Nat) (s : Schema) (db : DB)
    (x delayMs : Nat) (e : Entity) (hfind : findEntity db x = some e)
    (hpol : s.policyOf e.table = .scheduled delayMs)
    (hord : OrderedDeps s db) (hnd : NodupIds db)
    (hfuel : db.entities.length + 2 ≤ fuel) :
    (∃ e' ∈ (deleteEnt fuel s db x).entities, e'.id = x ∧
      e'.deletionTime = some db.time) ∧
    (∀ d, TransSoftDep s db x d →
      ∃ e' ∈ (deleteEnt fuel s db x).entities, e'.id = d ∧
        e'.deletionTime = some db.time) ∧
    ((deleteEnt fuel s db x).schedQ = db.schedQ ++ [(x, delayMs)]) ∧
    (∀ d, (d = x ∨ TransSoftDep s db x d) →
      ∀ d' ∈ (scheduledDeletePass fuel s (deleteEnt fuel s db x) x).entities,
        d'.id ≠ d) ∧
    ((scheduledDeletePass fuel s (deleteEnt fuel s db x) x).schedQ =
      (deleteEnt fuel s db x).schedQ) := by
  set dbs := softDeleteEntity fuel s db x db.time with hdbs
  set dbd := deleteEnt fuel s db x with hdbd
  have hent : dbd.entities = dbs.entities := by
    rw [hdbd, deleteEnt_sched_eq hfind hpol]
  have hq : dbd.schedQ = dbs.schedQ ++ [(x, delayMs)] := by
    rw [hdbd, deleteEnt_sched_eq hfind hpol]
  have hskel : SameSkel dbs db := softDel_skel fuel s db x db.time
  have hskelr : SameSkel dbd db := by
    unfold SameSkel
    rw [hent]
    exact hskel
  have hndr : NodupIds dbd := by
    unfold NodupIds
    rw [hent]
    exact nodupIds_skel hskel hnd
  have hordr : OrderedDeps s dbd := by
    intro d hd t' ht hdep
    rw [hent] at hd ht
    exact ordDeps_skel hskel hord d hd t' ht hdep
  have hroot : ∃ e' ∈ dbs.entities, e'.id = x ∧
      e'.deletionTime = some db.time :=
    softDel_marks_root (by omega) hfind
  obtain ⟨er, herm, herid, herdt⟩ := hroot
  have hfindr : findEntity dbd x = some er := by
    unfold findEntity
    rw [hent]
    exact findEntity_of_mem (nodupIds_skel hskel hnd) herm herid
  have hpass : scheduledDeletePass fuel s dbd x =
      hardDeleteEntity fuel s dbd x := by
    unfold scheduledDeletePass
    rw [hfindr]
    simp [herdt]
  have hcount : countGT db x ≤ db.entities.length :=
    List.length_filter_le _ _
  refine ⟨⟨er, by rw [hent]; exact herm, herid, herdt⟩, ?_, ?_, ?_, ?_⟩
  · intro d htd
    obtain ⟨l, hchain⟩ := transGen_path htd
    have hlen := softChain_length_le hord hchain
    have hmarked := @softDel_chain_marked s db db.time d l fuel db x rfl
      hchain
      (by simp only [List.length_append, List.length_cons, List.length_nil]
            at hlen
          omega)
    rw [hent, hdbs]
    exact hmarked
  · rw [hq, hdbs, (softDel_frame fuel s db x db.time).2.1]
  · intro d hd d' hd' heq
    rw [hpass] at hd'
    have hcountr : countGT dbd x < fuel := by
      rw [countGT_skel hskelr]
      omega
    refine hardDel_closure_removed fuel s dbd x hordr hndr hcountr d' hd' ?_
    cases hd with
    | inl hx => exact Or.inl (heq.trans hx)
    | inr htd =>
      right
      rw [heq]
      exact (transDep_skel hskelr x d).mpr (transSoftDep_imp hnd htd)
  · rw [hpass]
    exact (hardDel_schedQ_time_nextId fuel s dbd x).1

/-- Witness for C2 on `dbSched`: deleting the scheduled-policy user 1
soft-deletes it, enqueues exactly one pass `(1, 10)`, and the pass then
removes the user and its cascade. -/
theorem scheduled_delete_behavior_witness :
    (∃ e' ∈ (deleteEnt 5 sSched dbSched 1).entities, e'.id = 1 ∧
      e'.deletionTime = some dbSched.time) ∧
    (∀ d, TransSoftDep sSched dbSched 1 d →
      ∃ e' ∈ (deleteEnt 5 sSched dbSched 1).entities, e'.id = d ∧
        e'.deletionTime = some dbSched.time) ∧
    ((deleteEnt 5 sSched dbSched 1).schedQ = dbSched.schedQ ++ [(1, 10)]) ∧
    (∀ d, (d = 1 ∨ TransSoftDep sSched dbSched 1 d) →
      ∀ d' ∈ (scheduledDeletePass 5 sSched
        (deleteEnt 5 sSched dbSched 1) 1).entities, d'.id ≠ d) ∧
    ((scheduledDeletePass 5 sSched (deleteEnt 5 sSched dbSched 1) 1).schedQ =
      (deleteEnt 5 sSched dbSched 1).schedQ) :=
  scheduled_delete_behavior 5 sSched dbSched 1 10
    { id := 1, table := "users", creationTime := 0, deletionTime := none,
      fields := [] }
    rfl rfl (by unfold OrderedDeps; decide) (by unfold NodupIds; decide)
    (by decide)

end ConvexEnts
